import Mathlib

/-!
Verification of the Narration-to-Clip Segmentation and Alignment Engine.

This file is a shallow embedding of the segmentation/alignment core of the
repository (`automate_shorts.ts` and the duplicated pipeline variant).
Conventions used throughout:

- JS strings are modelled as `List Char` (`Str`).  JS regex classes are
  modelled by character predicates: `\s` by `Char.isWhitespace` and
  `\w` by ASCII alphanumerics plus underscore, which agrees with JS on the
  ASCII inputs the pipeline handles.
- JS numbers are modelled as `ℚ`.  `Number.prototype.toFixed(d)` followed by
  `Number(...)` is modelled by `toFixed d`, rounding to `d` decimal places
  with ties going up, which is the decimal rounding `toFixed` performs
  (`jsRound` is `round` implemented through `Rat.floor` so that it computes).
  A JS `Number.isFinite` guard is dropped because every `ℚ` is finite.
- fallible code (`throw`) is modelled with `Except`.
- file-system side effects (writing the JSON artifacts) are not modelled;
  the functions below are the pure logic of their JS counterparts.
-/

set_option maxHeartbeats 4000000

/-- JS strings, modelled as lists of characters. -/
abbrev Str := List Char

/-- JS regex class backslash-s, one whitespace character. -/
def isWs (c : Char) : Bool := c.isWhitespace

/-- JS regex class backslash-w: ASCII alphanumeric or underscore. -/
def isWordChar (c : Char) : Bool := c.isAlphanum || c == '_'

/-- Characters kept by the replace of non-word non-space characters in
`normalizeForCoverage`. -/
def keepChar (c : Char) : Bool := isWordChar c || isWs c

/-- JS `String.prototype.trim`: strip leading and trailing whitespace. -/
def trimStr (s : Str) : Str :=
  ((s.dropWhile isWs).reverse.dropWhile isWs).reverse

/-- JS `text.split(/\s+/).filter(Boolean)` after a trim: the maximal
whitespace-free nonempty tokens of a string, in order. -/
def tokens : Str → List Str
  | [] => []
  | c :: cs =>
    if isWs c then tokens cs
    else (c :: cs.takeWhile (fun d => !isWs d)) :: tokens (cs.dropWhile (fun d => !isWs d))
termination_by s => s.length
decreasing_by
  · simp only [List.length_cons]; omega
  · have h := (List.dropWhile_sublist (l := cs) (fun d => !isWs d)).length_le
    simp only [List.length_cons]; omega

/-- JS `parts.join(' ')`: single-space join of a list of strings. -/
def joinSp : List Str → Str
  | [] => []
  | [p] => p
  | p :: ps => p ++ ' ' :: joinSp ps

/-- JS `text.replace(/\s+/g, ' ')`: collapse every whitespace run to one space. -/
def collapseWs : Str → Str
  | [] => []
  | c :: cs =>
    if isWs c then ' ' :: collapseWs (cs.dropWhile isWs)
    else c :: collapseWs cs
termination_by s => s.length
decreasing_by
  · have h := (List.dropWhile_sublist (l := cs) isWs).length_le
    simp only [List.length_cons]; omega
  · simp only [List.length_cons]; omega

/-- Sentence-final punctuation used by the boundary matcher in `splitSentences`. -/
def isEndPunct (c : Char) : Bool := c == '.' || c == '!' || c == '?'

/-- Head character is whitespace (the lookbehind split needs at least one
whitespace character after the punctuation). -/
def headIsWs : Str → Bool
  | [] => false
  | d :: _ => isWs d

/-- JS `normalized.split(/(?<=[.!?])\s+/)`: cut after sentence punctuation
followed by whitespace, consuming the whitespace run.  The first argument is
the reversed accumulator of the current part. -/
def sentSplitGo : Str → Str → List Str
  | acc, [] => [acc.reverse]
  | acc, c :: cs =>
    if isEndPunct c && headIsWs cs then
      (c :: acc).reverse :: sentSplitGo [] (cs.dropWhile isWs)
    else sentSplitGo (c :: acc) cs
termination_by _ s => s.length
decreasing_by
  · have h := (List.dropWhile_sublist (l := cs) isWs).length_le
    simp only [List.length_cons]; omega
  · simp only [List.length_cons]; omega

/-- Embeds `splitSentences` from the source: whitespace-collapse and trim,
split after `.`/`!`/`?` followed by whitespace, trim the parts, drop empties,
and fall back to the whole normalized string when no part survives. -/
def splitSentences (text : Str) : List Str :=
  let normalized := trimStr (collapseWs text)
  if normalized.isEmpty then []
  else
    let chunks := ((sentSplitGo [] normalized).map trimStr).filter (fun p => !p.isEmpty)
    if chunks.isEmpty then [normalized] else chunks

/-- One round of the even word split: `take = max(1, ceil(remaining/slots))`
words for the current bucket, recursing on the remaining slots.  Nat ceiling
division `(r + s) / (s+1)` is `ceil(r / (s+1))`; the clamped Nat subtraction
agrees with the JS arithmetic because a negative JS `remaining` also yields
`take = 1` through the `max`. -/
def evenGo (words : List Str) : Nat → Nat → List Str
  | 0, _ => []
  | slots + 1, cursor =>
    let remaining := words.length - cursor
    let tk := max 1 ((remaining + slots) / (slots + 1))
    joinSp ((words.drop cursor).take tk) :: evenGo words slots (cursor + tk)

/-- Embeds `splitTextEvenlyByWords` from the source. -/
def splitTextEvenlyByWords (text : Str) (count : Nat) : List Str :=
  let words := tokens text
  if words.isEmpty then List.replicate count []
  else evenGo words count 0

/-- JS rounding to the nearest integer with ties up, as performed decimal-wise
by `toFixed`; written through `Rat.floor` so that it evaluates. -/
def jsRound (q : ℚ) : ℤ := Rat.floor (q + 1/2)

/-- Models `Number(v.toFixed(d))`: round to `d` decimal places. -/
def toFixed (d : Nat) (q : ℚ) : ℚ := (jsRound (q * 10 ^ d) : ℚ) / 10 ^ d

/-- Embeds `distributeDurationsByWeight` from the source: normalize weights,
allocate proportionally, round to 3 decimals with a 0.1s floor, and put the
rounding residual on the last element (re-floored at 0.1s). -/
def distributeDurationsByWeight (totalSec : ℚ) (weights : List ℚ) : List ℚ :=
  if totalSec ≤ 0 ∨ weights = [] then []
  else
    let safeWeights := weights.map (fun w => if 0 < w then w else 1)
    let weightSum := safeWeights.sum
    let raw := safeWeights.map (fun w => w / weightSum * totalSec)
    let rounded := raw.map (fun v => max (1/10) (toFixed 3 v))
    let roundedSum := rounded.sum
    let correction := toFixed 3 (totalSec - roundedSum)
    rounded.dropLast ++ [max (1/10) (toFixed 3 (rounded.getLastD 0 + correction))]

/-- Proof-side name for the intermediate `rounded` list of
`distributeDurationsByWeight` (the floored 3-decimal roundings of the
proportional allocations, before the residual correction). -/
def distRounded (totalSec : ℚ) (weights : List ℚ) : List ℚ :=
  ((weights.map (fun w => if 0 < w then w else 1)).map
    (fun w => w / (weights.map (fun w => if 0 < w then w else 1)).sum * totalSec)).map
    (fun v => max (1/10) (toFixed 3 v))

/-- The re-floor guard of `distributeDurationsByWeight`: the corrected last
duration stays at or above the 0.1s floor, so the floor does not fire when
the residual is applied. -/
def distributeNoRefloor (totalSec : ℚ) (weights : List ℚ) : Prop :=
  let safeWeights := weights.map (fun w => if 0 < w then w else 1)
  let weightSum := safeWeights.sum
  let raw := safeWeights.map (fun w => w / weightSum * totalSec)
  let rounded := raw.map (fun v => max (1/10) (toFixed 3 v))
  1/10 ≤ rounded.getLastD 0 + toFixed 3 (totalSec - rounded.sum)

/-- The two segmentation modes of the engine. -/
inductive SegMode
  | sceneDriven
  | clipDriven
deriving DecidableEq, Repr

/-- The `VIDEO_FORMAT` configuration constant (`short`, `5min` or `11min`). -/
inductive VideoFormatId
  | short
  | fiveMin
  | elevenMin
deriving DecidableEq, Repr

/-- Input of `withTimeline`: a segment before start/end times are derived. -/
structure SegSpec where
  clipIndex : Nat
  text : Str
  durationSec : ℚ
  source : SegMode
  sourceClipDurationSec : Option ℚ
deriving DecidableEq, Repr

/-- The `ClipSegment` record of the source. -/
structure ClipSegment where
  clipIndex : Nat
  text : Str
  durationSec : ℚ
  startSec : ℚ
  endSec : ℚ
  source : SegMode
  sourceClipDurationSec : Option ℚ
deriving DecidableEq, Repr

/-- Running-cumulative-sum worker of `withTimeline`. -/
def withTimelineGo : ℚ → List SegSpec → List ClipSegment
  | _, [] => []
  | cursor, s :: rest =>
    let startSec := toFixed 3 cursor
    let cursor' := cursor + s.durationSec
    let endSec := toFixed 3 cursor'
    { clipIndex := s.clipIndex
      text := s.text
      durationSec := toFixed 3 s.durationSec
      startSec := startSec
      endSec := endSec
      source := s.source
      sourceClipDurationSec := s.sourceClipDurationSec } :: withTimelineGo cursor' rest

/-- Embeds `withTimeline` from the source. -/
def withTimeline (segments : List SegSpec) : List ClipSegment :=
  withTimelineGo 0 segments

/-- Embeds `normalizeForCoverage` from the source: lower-case, strip
non-word non-space characters, collapse whitespace, trim. -/
def normalizeForCoverage (text : Str) : Str :=
  trimStr (collapseWs ((text.map Char.toLower).filter keepChar))

/-- Embeds `computeCoverageRatio` from the source. -/
def computeCoverageRatio (fullText : Str) (segmentTexts : List Str) : ℚ :=
  let full := normalizeForCoverage fullText
  let joined := normalizeForCoverage (joinSp segmentTexts)
  if full.isEmpty then 1
  else min 1 ((joined.length : ℚ) / (full.length : ℚ))

/-- Reason codes pushed by `buildAlignmentChecks`.  The source encodes the
stretch reason as a string that names the stretched segment index and the
rounded ratio (`stretch_ratio_too_high segment_i_ratio_r`); that payload is
carried by the constructor, `none` standing for the bare
`stretch_ratio_too_high` string emitted when `findIndex` returned -1. -/
inductive Reason
  | coverage_below_threshold
  | duration_delta_too_high
  | empty_segment_text
  | stretch_ratio_too_high (detail : Option (Nat × ℚ))
  | insufficient_clip_count_for_context
  | alignment_check_failed
deriving DecidableEq, Repr

/-- The `SegmentAlignmentCheck` record of the source; the optional
`stretchSegmentIndex` is `none` when the field is absent. -/
structure SegmentAlignmentCheck where
  coverageRatio : ℚ
  durationDeltaSec : ℚ
  emptySegmentCount : Nat
  availableClipCount : Nat
  requiredClipCount : Nat
  maxStretchRatio : ℚ
  stretchSegmentIndex : Option Nat
deriving DecidableEq, Repr

/-- The `SegmentAlignmentReport` record of the source. -/
structure SegmentAlignmentReport where
  mode : SegMode
  passed : Bool
  reasons : List Reason
  checks : SegmentAlignmentCheck
  segments : List ClipSegment
deriving DecidableEq, Repr

/-- Per-segment stretch ratio computed inside `buildAlignmentChecks`:
`durationSec / base` where `base` is the source clip duration when present
and positive (JS truthiness also rejects 0), else the segment duration. -/
def stretchRatioOf (s : ClipSegment) : ℚ :=
  let base :=
    match s.sourceClipDurationSec with
    | some d => if 0 < d then d else s.durationSec
    | none => s.durationSec
  if 0 < base then s.durationSec / base else 1

/-- Embeds `buildAlignmentChecks` from `automate_shorts.ts`, with the
module-level `VIDEO_FORMAT` configuration passed explicitly.  Thresholds:
coverage 0.98 (clip-driven only); duration delta 0.35, relaxed to 1.25 for
scene-driven and for long-form clip-driven; stretch 1.8, relaxed to 4.5 for
long-form clip-driven (clip-driven only); clip sufficiency (clip-driven
only). -/
def buildAlignmentChecks (format : VideoFormatId) (mode : SegMode)
    (scriptVoiceover : Str) (segments : List ClipSegment) (mergedAudioSec : ℚ)
    (availableClipCount requiredClipCount : Nat) : SegmentAlignmentReport :=
  let sumDur := (segments.map (fun s => s.durationSec)).sum
  let emptySegmentCount := (segments.filter (fun s => (trimStr s.text).isEmpty)).length
  let stretchRatios := segments.map stretchRatioOf
  let maxStretchRatioVal := stretchRatios.foldl max 1
  let stretchSegmentIndex := stretchRatios.findIdx? (fun r => r == maxStretchRatioVal)
  let checks : SegmentAlignmentCheck :=
    { coverageRatio := toFixed 4 (computeCoverageRatio scriptVoiceover (segments.map (fun s => s.text)))
      durationDeltaSec := toFixed 4 |sumDur - mergedAudioSec|
      emptySegmentCount := emptySegmentCount
      availableClipCount := availableClipCount
      requiredClipCount := requiredClipCount
      maxStretchRatio := toFixed 4 maxStretchRatioVal
      stretchSegmentIndex :=
        if mode = SegMode.clipDriven then stretchSegmentIndex else none }
  let isLongFormat := format = VideoFormatId.fiveMin ∨ format = VideoFormatId.elevenMin
  let durationDeltaLimit : ℚ :=
    if mode = SegMode.sceneDriven then 5/4
    else if mode = SegMode.clipDriven ∧ isLongFormat then 5/4 else 7/20
  let stretchRatioLimit : ℚ :=
    if mode = SegMode.clipDriven ∧ isLongFormat then 9/2 else 9/5
  let reasons : List Reason :=
    (if mode = SegMode.clipDriven ∧ checks.coverageRatio < 49/50 then
      [Reason.coverage_below_threshold] else [])
    ++ (if durationDeltaLimit < checks.durationDeltaSec then
      [Reason.duration_delta_too_high] else [])
    ++ (if 0 < checks.emptySegmentCount then [Reason.empty_segment_text] else [])
    ++ (if mode = SegMode.clipDriven ∧ stretchRatioLimit < checks.maxStretchRatio then
      [Reason.stretch_ratio_too_high
        (stretchSegmentIndex.map (fun i => (i, checks.maxStretchRatio)))] else [])
    ++ (if mode = SegMode.clipDriven ∧ checks.availableClipCount < checks.requiredClipCount then
      [Reason.insufficient_clip_count_for_context] else [])
  { mode := mode
    passed := reasons.isEmpty
    reasons := reasons
    checks := checks
    segments := segments }

/-- Structured payload of the `ALIGNMENT_BLOCKED` error thrown by
`ensureAlignmentOrBlock` (the source serializes it as JSON inside the
exception message). -/
structure BlockedPayload where
  reason : Reason
  reasons : List Reason
  hint : Option String
  requiredFiles : List String
deriving DecidableEq, Repr

/-- Expected clip filename for index `i`. -/
def clipFileName (i : Nat) : String := "clip_" ++ toString i ++ ".mp4"

/-- The source tests `primaryReason.startsWith('stretch_ratio_too_high') ||
primaryReason.includes('stretch')`; among the emitted reason strings exactly
the stretch reasons contain `stretch`. -/
def isStretchReason : Reason → Bool
  | Reason.stretch_ratio_too_high _ => true
  | _ => false

/-- The remediation hint derived from the primary reason in
`ensureAlignmentOrBlock`. -/
def hintFor (report : SegmentAlignmentReport) (primaryReason : Reason) : Option String :=
  if report.mode = SegMode.clipDriven then
    if isStretchReason primaryReason then
      some "Upload one more clip so clip count matches scene count, or use shorter narration per clip."
    else if primaryReason = Reason.coverage_below_threshold then
      some "Upload one more clip so clip count matches scene count, or use shorter narration per clip."
    else if primaryReason = Reason.insufficient_clip_count_for_context then
      some ("Upload " ++ toString (report.checks.requiredClipCount - report.checks.availableClipCount)
        ++ " more clip(s) so clip count matches scene count ("
        ++ toString report.checks.requiredClipCount ++ " scenes).")
    else if primaryReason = Reason.empty_segment_text then
      some "Ensure every scene has voiceover text, or upload clips that match scene count."
    else none
  else none

/-- Embeds `ensureAlignmentOrBlock` from the source: return normally on a
passing report, otherwise throw the structured blocked signal whose
`requiredFiles` lists `clip_0.mp4 ...` up to
`max(scenesLength, requiredClipCount)`.  The unconditional write of the
alignment artifact is a file-system effect and is not modelled. -/
def ensureAlignmentOrBlock (report : SegmentAlignmentReport) (scenesLength : Nat) :
    Except BlockedPayload Unit :=
  if report.passed then Except.ok ()
  else
    let primaryReason := report.reasons.headD Reason.alignment_check_failed
    Except.error
      { reason := primaryReason
        reasons := report.reasons
        hint := hintFor report primaryReason
        requiredFiles :=
          (List.range (max scenesLength report.checks.requiredClipCount)).map clipFileName }

/-- The `SubChunk` record of the source: one subtitle cue. -/
structure SubChunk where
  startSec : ℚ
  endSec : ℚ
  text : Str
deriving DecidableEq, Repr

/-- Constant `MAX_WORDS_PER_CHUNK` from the source. -/
def MAX_WORDS_PER_CHUNK : Nat := 4

/-- Constant `MIN_CHUNK_DURATION_SEC` from the source. -/
def MIN_CHUNK_DURATION_SEC : ℚ := 1/2

/-- Constant `MAX_SUBTITLE_CHUNKS` from the source. -/
def MAX_SUBTITLE_CHUNKS : Nat := 100

/-- The chunk-building fold of `segmentToSubChunks`: accumulate words and
flush whenever the accumulator reaches `maxWords` words, keeping a trailing
partial chunk.  The first list argument is the reversed accumulator. -/
def chunkWordsGo (maxWords : Nat) : List Str → List Str → List Str
  | acc, [] => if acc.isEmpty then [] else [joinSp acc.reverse]
  | acc, w :: ws =>
    let acc' := w :: acc
    if maxWords ≤ acc'.length then joinSp acc'.reverse :: chunkWordsGo maxWords [] ws
    else chunkWordsGo maxWords acc' ws

/-- The inner cue-emitting loop of `segmentToSubChunks` for one segment's
chunk list: `budget` is the remaining global cue allowance
(`maxChunks - out.length`), `t` the running time cursor.  A chunk is emitted
only when its interval is nonempty (`end > start`); `t` advances to `end`
regardless, exactly as in the source. -/
def chunkLoop (minDur segEnd segDur totalLen : ℚ) : Nat → ℚ → List Str → List SubChunk
  | _, _, [] => []
  | budget, t, ch :: rest =>
    if budget = 0 then []
    else
      let e :=
        match rest with
        | [] => segEnd
        | _ :: _ => min segEnd (t + max minDur (segDur * (ch.length : ℚ) / totalLen))
      if t < e then
        { startSec := t, endSec := e, text := ch } :: chunkLoop minDur segEnd segDur totalLen (budget - 1) e rest
      else chunkLoop minDur segEnd segDur totalLen budget e rest

/-- Word stream of one segment in `segmentToSubChunks`.  The source first
splits the trimmed text into phrases on punctuation-plus-whitespace or
newline runs, then splits every phrase on whitespace and flattens; since the
phrase boundaries are themselves whitespace runs and the pieces are trimmed
and flattened immediately, the composite is exactly whitespace
tokenization of the trimmed text. -/
def segWords (raw : Str) : List Str := tokens raw

/-- Chunk texts of one segment: word groups of at most `maxWords` words. -/
def segChunks (maxWords : Nat) (raw : Str) : List Str :=
  chunkWordsGo maxWords [] (segWords raw)

/-- Character-length weight denominator of one segment's chunks: the summed
chunk lengths, with the JS `|| 1` guard replacing 0 by 1. -/
def chunksTotalLen (chunks : List Str) : Nat :=
  let s := (chunks.map (fun c => c.length)).sum
  if s = 0 then 1 else s

/-- Main loop of `segmentToSubChunks` over the segment list, threading the
remaining cue budget.  An empty-text segment is skipped (`continue`); the
budget check fires after that check, and exhausting it stops the whole
loop (`break`). -/
def subChunksGo (maxWords : Nat) (minDur : ℚ) : Nat → List ClipSegment → List SubChunk
  | _, [] => []
  | budget, seg :: rest =>
    let raw := trimStr seg.text
    if raw.isEmpty then subChunksGo maxWords minDur budget rest
    else if budget = 0 then []
    else
      let segDur := max (1/100) (seg.endSec - seg.startSec)
      if (segWords raw).isEmpty then subChunksGo maxWords minDur budget rest
      else
        let chunks := segChunks maxWords raw
        let cues := chunkLoop minDur seg.endSec segDur (chunksTotalLen chunks : ℚ) budget seg.startSec chunks
        cues ++ subChunksGo maxWords minDur (budget - cues.length) rest

/-- Embeds `segmentToSubChunks` from the source, at its default options. -/
def segmentToSubChunks (segments : List ClipSegment) : List SubChunk :=
  subChunksGo MAX_WORDS_PER_CHUNK MIN_CHUNK_DURATION_SEC MAX_SUBTITLE_CHUNKS segments

/-- The same loop as `subChunksGo`, collecting the cues of each input segment
as one block per segment (used to attribute cues to segments in the
statements below); joining the blocks gives `subChunksGo`. -/
def cueBlocks (maxWords : Nat) (minDur : ℚ) : Nat → List ClipSegment → List (List SubChunk)
  | _, [] => []
  | budget, seg :: rest =>
    let raw := trimStr seg.text
    if raw.isEmpty then [] :: cueBlocks maxWords minDur budget rest
    else if budget = 0 then (seg :: rest).map (fun _ => [])
    else
      let segDur := max (1/100) (seg.endSec - seg.startSec)
      if (segWords raw).isEmpty then [] :: cueBlocks maxWords minDur budget rest
      else
        let chunks := segChunks maxWords raw
        let cues := chunkLoop minDur seg.endSec segDur (chunksTotalLen chunks : ℚ) budget seg.startSec chunks
        cues :: cueBlocks maxWords minDur (budget - cues.length) rest

/-- Cue blocks of `segmentToSubChunks` at its default options. -/
def segmentCueBlocks (segments : List ClipSegment) : List (List SubChunk) :=
  cueBlocks MAX_WORDS_PER_CHUNK MIN_CHUNK_DURATION_SEC MAX_SUBTITLE_CHUNKS segments

/-- Total chunk count of a segment list: when it stays within the cue cap,
the cap never truncates and every segment is fully captioned. -/
def totalChunkCount (segments : List ClipSegment) : Nat :=
  (segments.map (fun seg =>
    let raw := trimStr seg.text
    if raw.isEmpty then 0 else (segChunks MAX_WORDS_PER_CHUNK raw).length)).sum

/-- Inner `while` of the greedy sentence packer in `splitVoiceoverByClipCount`:
advance `cursor` accumulating sentence weights until the loop breaks.
`stillNeededForOthers` and the break conditions mirror the source; the Nat
subtractions agree with the JS integer arithmetic on every reachable state
(`cursor < sentences.length` holds inside the loop and `remSegs ≥ 2` at every
call site). -/
def innerScan (sentences : List Str) (weights : List Nat) (target : ℚ) (remSegs : Nat) :
    Nat → ℚ → Nat
  | cursor, running =>
    if h : cursor < sentences.length then
      let still := decide (remSegs - 1 ≤ sentences.length - (cursor + 1))
      let nextW : ℚ := (weights.getD cursor 0 : ℚ)
      let projected := running + nextW
      if 0 < running ∧ target < projected ∧ still = true then cursor
      else
        let c' := cursor + 1
        if still = false then c'
        else if target * (17/20) ≤ projected then c'
        else innerScan sentences weights target remSegs c' projected
    else cursor
termination_by cursor _ => sentences.length - cursor
decreasing_by omega

/-- The trailing one-sentence-per-slot fill that runs when the remaining
sentences no longer exceed the remaining segments. -/
def earlyFill (sentences : List Str) (n : Nat) : Nat → List Str → List Str
  | cursor, segments =>
    if _h : segments.length < n ∧ cursor < sentences.length then
      earlyFill sentences n (cursor + 1) (segments ++ [sentences.getD cursor []])
    else segments
termination_by cursor _ => sentences.length - cursor
decreasing_by omega

/-- Outer `for` loop of the greedy sentence packer: iteration index `i`,
sentence cursor, and accumulated segments.  The last iteration absorbs all
remaining sentences; otherwise one greedy group is taken (at least one
sentence) and, when the remaining sentences fit the remaining slots, the
loop switches to `earlyFill` and stops. -/
def greedyGo (sentences : List Str) (weights : List Nat) (target : ℚ) (n : Nat) :
    Nat → Nat → List Str → List Str
  | i, cursor, segments =>
    if n ≤ i then segments
    else if i = n - 1 then segments ++ [trimStr (joinSp (sentences.drop cursor))]
    else
      let start := cursor
      let remSegs := n - i
      let remSents := sentences.length - cursor
      let c1 := innerScan sentences weights target remSegs cursor 0
      let c2 := if c1 = start then c1 + 1 else c1
      let segments' := segments ++ [trimStr (joinSp ((sentences.drop start).take (c2 - start)))]
      if remSents ≤ remSegs then earlyFill sentences n c2 segments'
      else greedyGo sentences weights target n (i + 1) c2 segments'
termination_by i _ _ => n - i
decreasing_by omega

/-- Embeds `splitVoiceoverByClipCount` from the source.  A nonpositive JS
`clipCount` is the Nat `0`.  Sentence weights are the word counts
`s.trim().split(/\s+/).filter(Boolean).length`, i.e. `(tokens s).length`. -/
def splitVoiceoverByClipCount (voiceover : Str) (clipCount : Nat) : List Str :=
  if clipCount = 0 then []
  else
    let sentences := splitSentences voiceover
    if sentences.isEmpty then List.replicate clipCount []
    else if sentences.length ≤ clipCount then
      (splitTextEvenlyByWords voiceover clipCount).map trimStr
    else
      let sentenceWeights := sentences.map (fun s => (tokens s).length)
      let totalWeight := sentenceWeights.sum
      let targetWeight : ℚ := max 1 ((totalWeight : ℚ) / (clipCount : ℚ))
      let segments := greedyGo sentences sentenceWeights targetWeight clipCount 0 0 []
      if segments.length < clipCount then
        (splitTextEvenlyByWords (trimStr (joinSp segments)) clipCount).map trimStr
      else if clipCount < segments.length then
        segments.take (clipCount - 1) ++ [trimStr (joinSp (segments.drop (clipCount - 1)))]
      else segments

/-- Trailing-whitespace trimmer; `trimStr s` is `dropTrailingWs` of the
leading-trimmed string. -/
def dropTrailingWs (s : Str) : Str := (s.reverse.dropWhile isWs).reverse

/-- Concrete fixture: the full narration of the coverage scenario. -/
def exNarration : Str := "The quick brown fox jumps.".data

/-- Concrete fixture: derived segment text covering 19 of the narration's 25
normalized characters. -/
def exCoverageText : Str := "the quick brown fox".data

/-- Concrete fixture: an ordinary clip-driven segment. -/
def exSeg : ClipSegment :=
  { clipIndex := 0, text := "hello world".data, durationSec := 2, startSec := 0, endSec := 2
    source := SegMode.clipDriven, sourceClipDurationSec := some 3 }

/-- Concrete fixture: a segment whose trimmed text is empty. -/
def exSegEmpty : ClipSegment :=
  { clipIndex := 4, text := "   ".data, durationSec := 2, startSec := 8, endSec := 10
    source := SegMode.clipDriven, sourceClipDurationSec := some 3 }

/-- Concrete fixture: five clip-driven segments, one of them with empty text. -/
def exSegs5 : List ClipSegment :=
  [ { clipIndex := 0, text := "a".data, durationSec := 2, startSec := 0, endSec := 2
      source := SegMode.clipDriven, sourceClipDurationSec := some 3 }
  , { clipIndex := 1, text := "b".data, durationSec := 2, startSec := 2, endSec := 4
      source := SegMode.clipDriven, sourceClipDurationSec := some 3 }
  , { clipIndex := 2, text := "c".data, durationSec := 2, startSec := 4, endSec := 6
      source := SegMode.clipDriven, sourceClipDurationSec := some 3 }
  , { clipIndex := 3, text := "d".data, durationSec := 2, startSec := 6, endSec := 8
      source := SegMode.clipDriven, sourceClipDurationSec := some 3 }
  , exSegEmpty ]

/-- Concrete fixture: the stretch scenario segment (`durationSec = 9`,
`sourceClipDurationSec = 3`, ratio 3.0). -/
def exStretchSeg : ClipSegment :=
  { clipIndex := 0, text := "hello world".data, durationSec := 9, startSec := 0, endSec := 9
    source := SegMode.clipDriven, sourceClipDurationSec := some 3 }

/-- Concrete fixture: a segment carrying only 80 percent of the narration. -/
def exCoverageSeg : ClipSegment :=
  { clipIndex := 0, text := exCoverageText, durationSec := 2, startSec := 0, endSec := 2
    source := SegMode.clipDriven, sourceClipDurationSec := some 3 }

/-- Concrete fixture: one hundred one-word segments that together exhaust the
100-cue cap. -/
def exCapSegs100 : List ClipSegment :=
  (List.range 100).map (fun i =>
    { clipIndex := i, text := ['a'], durationSec := 1, startSec := (i : ℚ), endSec := (i : ℚ) + 1
      source := SegMode.clipDriven, sourceClipDurationSec := none })

/-- Concrete fixture: the nonempty segment starved of cues by the cap. -/
def exCapSegB : ClipSegment :=
  { clipIndex := 100, text := ['b'], durationSec := 1, startSec := 100, endSec := 101
    source := SegMode.clipDriven, sourceClipDurationSec := none }

/-- Concrete fixture: the full 101-segment list for the cue-cap scenario. -/
def exCapSegs : List ClipSegment := exCapSegs100 ++ [exCapSegB]

/-! ### Character-level lemmas -/

theorem charToNat_inj {a b : Char} (h : a.toNat = b.toNat) : a = b :=
  Char.ext_iff.mpr (UInt32.ext h)

theorem charToNat_ofNat {n : Nat} (h : n.isValidChar) : (Char.ofNat n).toNat = n := by
  rw [Char.ofNat, dif_pos h, Char.ofNatAux]
  simp [Char.toNat, UInt32.toNat, BitVec.toNat_ofNatLt]

theorem isWhitespace_iff_toNat (d : Char) :
    d.isWhitespace = true ↔ d.toNat = 32 ∨ d.toNat = 9 ∨ d.toNat = 13 ∨ d.toNat = 10 := by
  unfold Char.isWhitespace
  simp only [Bool.or_eq_true, decide_eq_true_eq]
  constructor
  · rintro (((h | h) | h) | h) <;> subst h <;> simp [Char.toNat]
  · rintro (h | h | h | h)
    · exact Or.inl (Or.inl (Or.inl (charToNat_inj (show d.toNat = Char.toNat ' ' from h))))
    · exact Or.inl (Or.inl (Or.inr (charToNat_inj (show d.toNat = Char.toNat '\t' from h))))
    · exact Or.inl (Or.inr (charToNat_inj (show d.toNat = Char.toNat '\x0d' from h)))
    · exact Or.inr (charToNat_inj (show d.toNat = Char.toNat '\n' from h))

theorem isWs_toLower (c : Char) : isWs (Char.toLower c) = isWs c := by
  unfold isWs Char.toLower
  by_cases h : c.toNat ≥ 65 ∧ c.toNat ≤ 90
  · simp only [h, and_self, if_true]
    have hval : (c.toNat + 32).isValidChar := Or.inl (by omega)
    have htn : (Char.ofNat (c.toNat + 32)).toNat = c.toNat + 32 := charToNat_ofNat hval
    have h1 : (Char.ofNat (c.toNat + 32)).isWhitespace = false := by
      rw [← Bool.not_eq_true, isWhitespace_iff_toNat, htn]
      omega
    have h2 : c.isWhitespace = false := by
      rw [← Bool.not_eq_true, isWhitespace_iff_toNat]
      omega
    rw [h1, h2]
  · simp only [h, if_false]

/-! ### Generic list helpers -/

theorem dropWhile_append_if {α : Type} [DecidableEq α] (q : α → Bool) (x y : List α) :
    (x ++ y).dropWhile q =
      if x.dropWhile q = [] then y.dropWhile q else x.dropWhile q ++ y := by
  induction x with
  | nil => simp
  | cons a x ih =>
    by_cases ha : q a
    · simpa [List.dropWhile_cons, ha] using ih
    · simp [List.dropWhile_cons, ha]

theorem takeWhile_good_append {α : Type} (q : α → Bool) (u : List α) (d : α) (rest : List α)
    (hu : ∀ x ∈ u, q x = true) (hd : q d = false) :
    (u ++ d :: rest).takeWhile q = u := by
  induction u with
  | nil => simp [List.takeWhile_cons, hd]
  | cons a u ih =>
    have ha : q a = true := hu a (by simp)
    simp only [List.cons_append, List.takeWhile_cons, ha, if_true]
    rw [ih (fun x hx => hu x (by simp [hx]))]

theorem dropWhile_good_append {α : Type} (q : α → Bool) (u : List α) (d : α) (rest : List α)
    (hu : ∀ x ∈ u, q x = true) (hd : q d = false) :
    (u ++ d :: rest).dropWhile q = d :: rest := by
  induction u with
  | nil => simp [List.dropWhile_cons, hd]
  | cons a u ih =>
    have ha : q a = true := hu a (by simp)
    simp only [List.cons_append, List.dropWhile_cons, ha, if_true]
    exact ih (fun x hx => hu x (by simp [hx]))

theorem dropWhile_head_false {α : Type} (q : α → Bool) (l : List α) (d : α) (v : List α)
    (h : l.dropWhile q = d :: v) : q d = false := by
  induction l with
  | nil => simp at h
  | cons a l ih =>
    by_cases ha : q a
    · rw [List.dropWhile_cons, if_pos ha] at h
      exact ih h
    · rw [List.dropWhile_cons, if_neg ha] at h
      cases h
      simpa using ha

/-! ### Token structure lemmas -/

theorem tokens_nil : tokens [] = [] := by simp [tokens]

theorem tokens_cons_ws {c : Char} {cs : Str} (h : isWs c = true) :
    tokens (c :: cs) = tokens cs := by
  rw [tokens]
  simp [h]

theorem tokens_cons_nonws {c : Char} {cs : Str} (h : isWs c = false) :
    tokens (c :: cs) =
      (c :: cs.takeWhile (fun d => !isWs d)) :: tokens (cs.dropWhile (fun d => !isWs d)) := by
  rw [tokens]
  simp [h]

theorem tokens_mem : ∀ {s t : Str}, t ∈ tokens s → t ≠ [] ∧ ∀ c ∈ t, isWs c = false := by
  intro s
  induction s using tokens.induct with
  | case1 => intro t h; rw [tokens_nil] at h; simp at h
  | case2 c cs hc ih =>
    intro t h
    rw [tokens_cons_ws hc] at h
    exact ih h
  | case3 c cs hc ih =>
    intro t h
    have hc' : isWs c = false := by simpa using hc
    rw [tokens_cons_nonws hc'] at h
    rcases List.mem_cons.mp h with rfl | h
    · refine ⟨by simp, ?_⟩
      intro x hx
      rcases List.mem_cons.mp hx with rfl | hx
      · exact hc'
      · have hx' : (fun d => !isWs d) x = true := @List.mem_takeWhile_imp _ (fun d => !isWs d) cs x hx
        simpa using hx'
    · exact ih h

theorem tokens_append_ws_aux (w : Char) (hw : isWs w = true) :
    ∀ (n : Nat) (a b : Str), a.length ≤ n → tokens (a ++ w :: b) = tokens a ++ tokens b := by
  intro n
  induction n with
  | zero =>
    intro a b ha
    have : a = [] := List.length_eq_zero.mp (Nat.le_zero.mp ha)
    subst this
    rw [List.nil_append, tokens_cons_ws hw, tokens_nil, List.nil_append]
  | succ n ih =>
    intro a b ha
    match a with
    | [] => rw [List.nil_append, tokens_cons_ws hw, tokens_nil, List.nil_append]
    | c :: a' =>
      have ha' : a'.length ≤ n := by
        simp only [List.length_cons] at ha
        omega
      by_cases hc : isWs c
      · rw [List.cons_append, tokens_cons_ws hc, tokens_cons_ws hc]
        exact ih a' b ha'
      · have hc' : isWs c = false := by simpa using hc
        rw [List.cons_append, tokens_cons_nonws hc', tokens_cons_nonws hc']
        cases hdw : a'.dropWhile (fun d => !isWs d) with
        | nil =>
          have hall : ∀ x ∈ a', (fun d => !isWs d) x = true := List.dropWhile_eq_nil_iff.mp hdw
          have hwF : (fun d => !isWs d) w = false := by simp [hw]
          have ht : (a' ++ w :: b).takeWhile (fun d => !isWs d) = a' :=
            takeWhile_good_append _ a' w b hall hwF
          have ht2 : a'.takeWhile (fun d => !isWs d) = a' := List.takeWhile_eq_self_iff.mpr hall
          have hd : (a' ++ w :: b).dropWhile (fun d => !isWs d) = w :: b :=
            dropWhile_good_append _ a' w b hall hwF
          rw [ht, ht2, hd, tokens_nil, tokens_cons_ws hw]
          simp
        | cons d v =>
          have hsplit : a'.takeWhile (fun d => !isWs d) ++ d :: v = a' := by
            rw [← hdw]
            exact List.takeWhile_append_dropWhile _ a'
          have hu : ∀ x ∈ a'.takeWhile (fun d => !isWs d), (fun d => !isWs d) x = true :=
            fun x hx => @List.mem_takeWhile_imp _ (fun d => !isWs d) a' x hx
          have hpd : (fun d => !isWs d) d = false := dropWhile_head_false _ a' d v hdw
          have ht : (a' ++ w :: b).takeWhile (fun d => !isWs d) = a'.takeWhile (fun d => !isWs d) := by
            conv_lhs => rw [← hsplit, List.append_assoc]
            exact takeWhile_good_append _ _ d (v ++ w :: b) hu hpd
          have hd2 : (a' ++ w :: b).dropWhile (fun d => !isWs d) = d :: (v ++ w :: b) := by
            conv_lhs => rw [← hsplit, List.append_assoc]
            exact dropWhile_good_append _ _ d (v ++ w :: b) hu hpd
          have hwsd : isWs d = true := by simpa using hpd
          have hv : v.length ≤ n := by
            have h1 := (List.dropWhile_sublist (l := a') (fun d => !isWs d)).length_le
            rw [hdw] at h1
            simp only [List.length_cons] at h1
            omega
          rw [ht, hd2, tokens_cons_ws hwsd, tokens_cons_ws hwsd, ih v b hv, List.cons_append]

theorem tokens_append_ws (w : Char) (hw : isWs w = true) (a b : Str) :
    tokens (a ++ w :: b) = tokens a ++ tokens b :=
  tokens_append_ws_aux w hw a.length a b le_rfl

theorem tokens_joinSp (parts : List Str) :
    tokens (joinSp parts) = (parts.map tokens).flatten := by
  induction parts with
  | nil => simp [joinSp, tokens_nil]
  | cons p ps ih =>
    cases ps with
    | nil => simp [joinSp]
    | cons q ps' =>
      show tokens (p ++ ' ' :: joinSp (q :: ps')) = _
      rw [tokens_append_ws ' ' (by decide) p (joinSp (q :: ps')), ih]
      simp

theorem tokens_single {w : Str} (hne : w ≠ []) (hns : ∀ c ∈ w, isWs c = false) :
    tokens w = [w] := by
  match w with
  | [] => exact absurd rfl hne
  | c :: cs =>
    have hc : isWs c = false := hns c (by simp)
    rw [tokens_cons_nonws hc]
    have ht : cs.takeWhile (fun d => !isWs d) = cs :=
      List.takeWhile_eq_self_iff.mpr (fun x hx => by simp [hns x (by simp [hx])])
    have hd : cs.dropWhile (fun d => !isWs d) = [] :=
      List.dropWhile_eq_nil_iff.mpr (fun x hx => by simp [hns x (by simp [hx])])
    rw [ht, hd, tokens_nil]

theorem tokens_joinSp_words {ws : List Str}
    (h : ∀ w ∈ ws, w ≠ [] ∧ ∀ c ∈ w, isWs c = false) :
    tokens (joinSp ws) = ws := by
  rw [tokens_joinSp]
  induction ws with
  | nil => simp
  | cons w ws ih =>
    have hw := h w (by simp)
    rw [List.map_cons, List.flatten_cons, tokens_single hw.1 hw.2,
      ih (fun x hx => h x (by simp [hx]))]
    simp

theorem tokens_allws {t : Str} (h : ∀ c ∈ t, isWs c = true) : tokens t = [] := by
  induction t with
  | nil => exact tokens_nil
  | cons c cs ih =>
    rw [tokens_cons_ws (h c (by simp))]
    exact ih (fun x hx => h x (by simp [hx]))

theorem tokens_append_allws (a : Str) {t : Str} (h : ∀ c ∈ t, isWs c = true) :
    tokens (a ++ t) = tokens a := by
  induction t generalizing a with
  | nil => simp
  | cons w t ih =>
    have ht : tokens t = [] := tokens_allws (fun x hx => h x (by simp [hx]))
    rw [tokens_append_ws w (h w (by simp)) a t, ht]
    simp

theorem tokens_dropWhileWs (s : Str) : tokens (s.dropWhile isWs) = tokens s := by
  induction s with
  | nil => simp
  | cons c cs ih =>
    by_cases hc : isWs c
    · rw [List.dropWhile_cons, if_pos hc, ih, tokens_cons_ws hc]
    · rw [List.dropWhile_cons, if_neg hc]

theorem tokens_dropTrailingWs (s : Str) : tokens (dropTrailingWs s) = tokens s := by
  have hsplit : dropTrailingWs s ++ (s.reverse.takeWhile isWs).reverse = s := by
    rw [dropTrailingWs, ← List.reverse_append, List.takeWhile_append_dropWhile, List.reverse_reverse]
  have hws : ∀ c ∈ (s.reverse.takeWhile isWs).reverse, isWs c = true := by
    intro c hc
    exact List.mem_takeWhile_imp (List.mem_reverse.mp hc)
  conv_rhs => rw [← hsplit]
  rw [tokens_append_allws _ hws]

theorem tokens_trimStr (s : Str) : tokens (trimStr s) = tokens s := by
  have h : trimStr s = dropTrailingWs (s.dropWhile isWs) := rfl
  rw [h, tokens_dropTrailingWs, tokens_dropWhileWs]

/-! ### Whitespace-collapse and trim lemmas -/

theorem collapse_nil : collapseWs [] = [] := by simp [collapseWs]

theorem collapse_cons_ws {c : Char} {cs : Str} (h : isWs c = true) :
    collapseWs (c :: cs) = ' ' :: collapseWs (cs.dropWhile isWs) := by
  rw [collapseWs]
  simp [h]

theorem collapse_cons_nonws {c : Char} {cs : Str} (h : isWs c = false) :
    collapseWs (c :: cs) = c :: collapseWs cs := by
  rw [collapseWs]
  simp [h]

theorem joinSp_cons_ne_nil {p : Str} {ts : List Str} (h : ts ≠ []) :
    joinSp (p :: ts) = p ++ ' ' :: joinSp ts := by
  match ts with
  | [] => exact absurd rfl h
  | q :: ts' => rfl

theorem joinSp_eq_nil {ts : List Str} (hne : ∀ t ∈ ts, t ≠ []) (h : joinSp ts = []) :
    ts = [] := by
  match ts with
  | [] => rfl
  | [p] =>
    exact absurd h (hne p (by simp))
  | p :: q :: r =>
    rw [joinSp_cons_ne_nil (by simp)] at h
    rcases List.append_eq_nil.mp h with ⟨_, h2⟩
    simp at h2

theorem dropWhile_eq_self_of_head {q : Char → Bool} :
    ∀ {s : Str}, (∀ hd ∈ s.take 1, q hd = false) → s.dropWhile q = s := by
  intro s h
  match s with
  | [] => rfl
  | c :: cs =>
    rw [List.dropWhile_cons, if_neg]
    simp [h c (by simp)]

theorem trimStr_cons_ws {a : Char} {x : Str} (h : isWs a = true) :
    trimStr (a :: x) = trimStr x := by
  unfold trimStr
  rw [List.dropWhile_cons, if_pos h]

theorem trimStr_eq_dropTrailing {s : Str} (h : ∀ hd ∈ s.take 1, isWs hd = false) :
    trimStr s = dropTrailingWs s := by
  unfold trimStr dropTrailingWs
  rw [dropWhile_eq_self_of_head h]

theorem dropTrailing_append (A B : Str) :
    dropTrailingWs (A ++ B) =
      if dropTrailingWs B = [] then dropTrailingWs A else A ++ dropTrailingWs B := by
  unfold dropTrailingWs
  rw [List.reverse_append, dropWhile_append_if]
  by_cases hB : B.reverse.dropWhile isWs = []
  · rw [if_pos hB, if_pos (by rw [hB]; rfl)]
  · rw [if_neg hB, if_neg (fun hc => hB (by simpa using congrArg List.reverse hc))]
    simp

theorem dropTrailing_cons (a : Char) (x : Str) :
    dropTrailingWs (a :: x) =
      if dropTrailingWs x = [] then (if isWs a then [] else [a])
      else a :: dropTrailingWs x := by
  have h : (a : Char) :: x = [a] ++ x := rfl
  rw [h, dropTrailing_append [a] x]
  by_cases hx : dropTrailingWs x = []
  · rw [if_pos hx, if_pos hx]
    by_cases ha : isWs a <;>
      simp [dropTrailingWs, List.dropWhile_cons, ha]
  · rw [if_neg hx, if_neg hx]
    rfl

theorem dropTrailing_all_nonws {s : Str} (h : ∀ c ∈ s, isWs c = false) :
    dropTrailingWs s = s := by
  unfold dropTrailingWs
  rw [dropWhile_eq_self_of_head, List.reverse_reverse]
  intro hd hhd
  exact h hd (by
    have := List.mem_of_mem_take hhd
    simpa using this)

theorem trimStr_all_nonws {s : Str} (h : ∀ c ∈ s, isWs c = false) :
    trimStr s = s := by
  rw [trimStr_eq_dropTrailing (fun hd hhd => h hd (List.mem_of_mem_take hhd)),
    dropTrailing_all_nonws h]

theorem collapse_nonws_front : ∀ {a : Str} (x : Str), (∀ c ∈ a, isWs c = false) →
    collapseWs (a ++ x) = a ++ collapseWs x := by
  intro a
  induction a with
  | nil => simp
  | cons c a' ih =>
    intro x h
    rw [List.cons_append, collapse_cons_nonws (h c (by simp)), ih x (fun d hd => h d (by simp [hd]))]
    rfl

theorem collapse_dropWhileWs_head (s : Str) :
    collapseWs (s.dropWhile isWs) = [] ∨
      ∃ e rest, collapseWs (s.dropWhile isWs) = e :: rest ∧ isWs e = false := by
  cases hdw : s.dropWhile isWs with
  | nil => left; rw [collapse_nil]
  | cons e r =>
    right
    have he : isWs e = false := dropWhile_head_false isWs s e r hdw
    exact ⟨e, collapseWs r, collapse_cons_nonws he, he⟩

theorem trim_collapse_aux :
    ∀ (n : Nat) (u : Str), u.length ≤ n → trimStr (collapseWs u) = joinSp (tokens u) := by
  intro n
  induction n with
  | zero =>
    intro u hu
    have : u = [] := List.length_eq_zero.mp (Nat.le_zero.mp hu)
    subst this
    rw [collapse_nil, tokens_nil]
    rfl
  | succ n ih =>
    intro u hu
    match u with
    | [] =>
      rw [collapse_nil, tokens_nil]
      rfl
    | c :: cs =>
      have hcs : cs.length ≤ n := by
        simp only [List.length_cons] at hu
        omega
      by_cases hc : isWs c
      · have hlen : (cs.dropWhile isWs).length ≤ n := by
          have h1 := (List.dropWhile_sublist (l := cs) isWs).length_le
          omega
        rw [collapse_cons_ws hc, trimStr_cons_ws (by decide), ih (cs.dropWhile isWs) hlen,
          tokens_dropWhileWs, tokens_cons_ws hc]
      · have hc' : isWs c = false := by simpa using hc
        rw [collapse_cons_nonws hc', tokens_cons_nonws hc']
        have htw : ∀ x ∈ cs.takeWhile (fun d => !isWs d), isWs x = false := by
          intro x hx
          have hx' : (fun d => !isWs d) x = true :=
            @List.mem_takeWhile_imp _ (fun d => !isWs d) cs x hx
          simpa using hx'
        have hsplit : cs.takeWhile (fun d => !isWs d) ++ cs.dropWhile (fun d => !isWs d) = cs :=
          List.takeWhile_append_dropWhile _ cs
        cases hdw : cs.dropWhile (fun d => !isWs d) with
        | nil =>
          have hallp : ∀ x ∈ cs, (fun d => !isWs d) x = true := List.dropWhile_eq_nil_iff.mp hdw
          have hallns : ∀ x ∈ cs, isWs x = false := fun x hx => by simpa using hallp x hx
          have htake : cs.takeWhile (fun d => !isWs d) = cs :=
            List.takeWhile_eq_self_iff.mpr hallp
          have hcol : collapseWs cs = cs := by
            simpa [collapse_nil] using collapse_nonws_front ([] : Str) hallns
          have hall : ∀ x ∈ c :: cs, isWs x = false := by
            intro x hx
            rcases List.mem_cons.mp hx with rfl | hx
            · exact hc'
            · exact hallns x hx
          rw [hcol, trimStr_all_nonws hall, htake, tokens_nil]
          rfl
        | cons d dwt =>
          have hd : isWs d = true := by
            have := dropWhile_head_false _ cs d dwt hdw
            simpa using this
          have hcol : collapseWs cs
              = cs.takeWhile (fun d => !isWs d) ++ ' ' :: collapseWs (dwt.dropWhile isWs) := by
            conv_lhs => rw [← hsplit, hdw]
            rw [collapse_nonws_front _ htw, collapse_cons_ws hd]
          have hlen2 : (dwt.dropWhile isWs).length ≤ n := by
            have h1 := (List.dropWhile_sublist (l := dwt) isWs).length_le
            have h2 := (List.dropWhile_sublist (l := cs) (fun d => !isWs d)).length_le
            rw [hdw] at h2
            simp only [List.length_cons] at h2
            omega
          have hW : trimStr (collapseWs (dwt.dropWhile isWs)) = joinSp (tokens dwt) := by
            rw [ih (dwt.dropWhile isWs) hlen2, tokens_dropWhileWs]
          have hWd : dropTrailingWs (collapseWs (dwt.dropWhile isWs)) = joinSp (tokens dwt) := by
            rcases collapse_dropWhileWs_head dwt with hnil | ⟨e, rest, heq, hens⟩
            · rw [hnil] at hW ⊢
              rw [← hW]
              rfl
            · rw [heq] at hW ⊢
              rw [← hW, trimStr_eq_dropTrailing]
              intro hd2 hhd2
              have h2 : hd2 = e := by simpa using hhd2
              subst h2
              exact hens
          have hgoal : trimStr (c :: (cs.takeWhile (fun d => !isWs d)
              ++ ' ' :: collapseWs (dwt.dropWhile isWs)))
              = joinSp ((c :: cs.takeWhile (fun d => !isWs d)) :: tokens (d :: dwt)) := by
            rw [trimStr_eq_dropTrailing (by
              intro hd2 hhd2
              have h2 : hd2 = c := by simpa using hhd2
              subst h2
              exact hc')]
            have hrw : (c :: (cs.takeWhile (fun d => !isWs d)
                ++ ' ' :: collapseWs (dwt.dropWhile isWs)))
                = (c :: cs.takeWhile (fun d => !isWs d))
                  ++ (' ' :: collapseWs (dwt.dropWhile isWs)) := by
              simp
            rw [hrw, dropTrailing_append, tokens_cons_ws hd]
            have hdtB : dropTrailingWs (' ' :: collapseWs (dwt.dropWhile isWs))
                = if joinSp (tokens dwt) = [] then [] else ' ' :: joinSp (tokens dwt) := by
              rw [dropTrailing_cons, hWd]
              by_cases hJ : joinSp (tokens dwt) = []
              · rw [if_pos hJ, if_pos hJ]
                decide
              · rw [if_neg hJ, if_neg hJ]
            by_cases hJ : joinSp (tokens dwt) = []
            · have htok : tokens dwt = [] :=
                joinSp_eq_nil (fun t ht => (tokens_mem ht).1) hJ
              rw [hdtB, if_pos hJ, htok, if_pos rfl]
              rw [dropTrailing_all_nonws (by
                intro x hx
                rcases List.mem_cons.mp hx with rfl | hx
                · exact hc'
                · exact htw x hx)]
              rfl
            · have htok : tokens dwt ≠ [] := by
                intro hte
                rw [hte] at hJ
                exact hJ rfl
              rw [hdtB, if_neg hJ, if_neg (by simp), joinSp_cons_ne_nil htok]
          rw [hcol, hgoal]

theorem trim_collapse (u : Str) : trimStr (collapseWs u) = joinSp (tokens u) :=
  trim_collapse_aux u.length u le_rfl

/-! ### Normalization through tokens -/

theorem tokens_map_toLower (s : Str) :
    tokens (s.map Char.toLower) = (tokens s).map (List.map Char.toLower) := by
  induction s using tokens.induct with
  | case1 => simp [tokens_nil]
  | case2 c cs hc ih =>
    rw [List.map_cons, tokens_cons_ws (by rw [isWs_toLower]; exact hc), tokens_cons_ws hc]
    exact ih
  | case3 c cs hc ih =>
    have hc' : isWs c = false := by simpa using hc
    have hcl : isWs (Char.toLower c) = false := by rw [isWs_toLower]; exact hc'
    have hfun : ((fun d => !isWs d) ∘ Char.toLower) = (fun d : Char => !isWs d) := by
      funext d
      simp [Function.comp, isWs_toLower]
    have htk : (cs.map Char.toLower).takeWhile (fun d => !isWs d)
        = (cs.takeWhile (fun d => !isWs d)).map Char.toLower := by
      rw [List.takeWhile_map, hfun]
    have hdr : (cs.map Char.toLower).dropWhile (fun d => !isWs d)
        = (cs.dropWhile (fun d => !isWs d)).map Char.toLower := by
      rw [List.dropWhile_map, hfun]
    rw [List.map_cons, tokens_cons_nonws hcl, tokens_cons_nonws hc', htk, hdr, ih]
    simp

theorem tokens_filter_keep (s : Str) :
    tokens (s.filter keepChar) =
      ((tokens s).map (fun t => t.filter isWordChar)).filter (fun t => !t.isEmpty) := by
  induction s using tokens.induct with
  | case1 => simp [tokens_nil]
  | case2 c cs hc ih =>
    have hk : keepChar c = true := by
      unfold keepChar
      rw [hc]
      simp
    rw [List.filter_cons_of_pos hk, tokens_cons_ws hc, tokens_cons_ws hc]
    exact ih
  | case3 c cs hc ih =>
    have hc' : isWs c = false := by simpa using hc
    have htw : ∀ x ∈ c :: cs.takeWhile (fun d => !isWs d), isWs x = false := by
      intro x hx
      rcases List.mem_cons.mp hx with rfl | hx
      · exact hc'
      · have hx' : (fun d => !isWs d) x = true :=
          @List.mem_takeWhile_imp _ (fun d => !isWs d) cs x hx
        simpa using hx'
    have hKeq : (c :: cs.takeWhile (fun d => !isWs d)).filter keepChar
        = (c :: cs.takeWhile (fun d => !isWs d)).filter isWordChar := by
      apply List.filter_congr
      intro x hx
      unfold keepChar
      rw [htw x hx]
      simp
    have hKns : ∀ x ∈ (c :: cs.takeWhile (fun d => !isWs d)).filter isWordChar,
        isWs x = false := by
      intro x hx
      exact htw x (List.mem_of_mem_filter hx)
    have hsplit : (c :: cs.takeWhile (fun d => !isWs d))
          ++ cs.dropWhile (fun d => !isWs d) = c :: cs := by
      rw [List.cons_append, List.takeWhile_append_dropWhile]
    rw [tokens_cons_nonws hc']
    conv_lhs => rw [← hsplit]
    rw [List.filter_append, hKeq]
    cases hdw : cs.dropWhile (fun d => !isWs d) with
    | nil =>
      simp only [List.filter_nil, List.append_nil, tokens_nil]
      by_cases hK : (c :: cs.takeWhile (fun d => !isWs d)).filter isWordChar = []
      · rw [hK, tokens_nil]
        simp [hK]
      · rw [tokens_single hK hKns]
        simp [hK]
    | cons d dwt =>
      have hd : isWs d = true := by
        have := dropWhile_head_false _ cs d dwt hdw
        simpa using this
      have hkd : keepChar d = true := by
        unfold keepChar
        rw [hd]
        simp
      rw [hdw] at ih
      rw [List.filter_cons_of_pos hkd]
      have hstep : tokens ((c :: cs.takeWhile (fun d => !isWs d)).filter isWordChar
          ++ d :: (dwt.filter keepChar))
          = tokens ((c :: cs.takeWhile (fun d => !isWs d)).filter isWordChar)
            ++ tokens (dwt.filter keepChar) :=
        tokens_append_ws d hd _ _
      have hback : tokens (dwt.filter keepChar) = tokens ((d :: dwt).filter keepChar) := by
        rw [List.filter_cons_of_pos hkd, tokens_cons_ws hd]
      rw [hstep, hback, ih]
      by_cases hK : (c :: cs.takeWhile (fun d => !isWs d)).filter isWordChar = []
      · rw [hK, tokens_nil]
        simp [hK]
      · rw [tokens_single hK hKns]
        simp [hK]

theorem normalizeForCoverage_eq_tokens (s : Str) :
    normalizeForCoverage s =
      joinSp (((tokens s).map
        (fun t => (t.map Char.toLower).filter isWordChar)).filter (fun t => !t.isEmpty)) := by
  unfold normalizeForCoverage
  rw [trim_collapse, tokens_filter_keep, tokens_map_toLower, List.map_map]
  rfl

theorem normalizeForCoverage_congr {a b : Str} (h : tokens a = tokens b) :
    normalizeForCoverage a = normalizeForCoverage b := by
  rw [normalizeForCoverage_eq_tokens, normalizeForCoverage_eq_tokens, h]

/-! ### Rounding lemmas -/

theorem jsRound_eq_round (q : ℚ) : jsRound q = round q := by
  have h : Rat.floor (q + 1/2) = ⌊q + 1/2⌋ := by
    rw [Rat.floor_def', Rat.floor_def]
  rw [jsRound, h, round_eq]

theorem abs_sub_toFixed (d : Nat) (q : ℚ) : |q - toFixed d q| ≤ 1 / (2 * 10 ^ d) := by
  unfold toFixed
  rw [jsRound_eq_round]
  have hP : (0:ℚ) < 10 ^ d := by positivity
  have h := abs_sub_round (q * 10 ^ d)
  rw [show q - (round (q * 10 ^ d) : ℚ) / 10 ^ d
      = (q * 10 ^ d - (round (q * 10 ^ d) : ℚ)) / 10 ^ d by field_simp]
  rw [abs_div, abs_of_pos hP, div_le_iff₀ hP]
  calc |q * 10 ^ d - (round (q * 10 ^ d) : ℚ)| ≤ 1/2 := h
    _ ≤ 1 / (2 * 10 ^ d) * 10 ^ d := by
        rw [div_mul_eq_mul_div, le_div_iff₀ (by positivity : (0:ℚ) < 2 * 10 ^ d)]
        ring_nf
        rfl

theorem toFixed_intCast_div (d : Nat) (k : ℤ) : toFixed d ((k : ℚ) / 10 ^ d) = (k : ℚ) / 10 ^ d := by
  unfold toFixed
  rw [jsRound_eq_round]
  have hP : (10:ℚ) ^ d ≠ 0 := by positivity
  rw [div_mul_cancel₀ _ hP, round_intCast]

theorem toFixed_exists_int (d : Nat) (q : ℚ) : ∃ k : ℤ, toFixed d q = (k : ℚ) / 10 ^ d :=
  ⟨jsRound (q * 10 ^ d), rfl⟩

theorem toFixed_zero (d : Nat) : toFixed d 0 = 0 := by
  have h := toFixed_intCast_div d 0
  simpa using h

/-! ### Claim C3: timeline contiguity -/

theorem withTimelineGo_chain (cursor : ℚ) (l : List SegSpec) :
    List.Chain' (fun a b : ClipSegment => a.endSec = b.startSec) (withTimelineGo cursor l) := by
  induction l generalizing cursor with
  | nil => simp [withTimelineGo]
  | cons s rest ih =>
    cases rest with
    | nil => simp [withTimelineGo]
    | cons t rest' =>
      show List.Chain' _ (_ :: withTimelineGo (cursor + s.durationSec) (t :: rest'))
      rw [show withTimelineGo (cursor + s.durationSec) (t :: rest')
          = { clipIndex := t.clipIndex, text := t.text
              durationSec := toFixed 3 t.durationSec
              startSec := toFixed 3 (cursor + s.durationSec)
              endSec := toFixed 3 (cursor + s.durationSec + t.durationSec)
              source := t.source
              sourceClipDurationSec := t.sourceClipDurationSec }
            :: withTimelineGo (cursor + s.durationSec + t.durationSec) rest' from rfl]
      rw [List.chain'_cons]
      constructor
      · rfl
      · exact ih (cursor + s.durationSec)

/-- C3: for every ordered input list, the timeline built by `withTimeline`
starts at 0 and is contiguous: each segment's `endSec` equals the next
segment's `startSec` (both are the 3-decimal rounding of the same running
cumulative sum), with no gaps or overlaps. -/
theorem withTimeline_contiguous (segments : List SegSpec) :
    ((withTimeline segments).map ClipSegment.startSec).headD 0 = 0 ∧
    List.Chain' (fun a b : ClipSegment => a.endSec = b.startSec) (withTimeline segments) := by
  constructor
  · unfold withTimeline
    cases segments with
    | nil => rfl
    | cons s rest =>
      show toFixed 3 0 = 0
      exact toFixed_zero 3
  · exact withTimelineGo_chain 0 segments

/-- Witness for C3: the contiguity property evaluated at a concrete
two-segment input. -/
theorem withTimeline_contiguous_witness :
    (((withTimeline
        [{ clipIndex := 0, text := "a".data, durationSec := 2,
           source := SegMode.clipDriven, sourceClipDurationSec := none },
         { clipIndex := 1, text := "b".data, durationSec := 3,
           source := SegMode.clipDriven, sourceClipDurationSec := none }]).map
          ClipSegment.startSec).headD 0 = 0) ∧
    List.Chain' (fun a b : ClipSegment => a.endSec = b.startSec)
      (withTimeline
        [{ clipIndex := 0, text := "a".data, durationSec := 2,
           source := SegMode.clipDriven, sourceClipDurationSec := none },
         { clipIndex := 1, text := "b".data, durationSec := 3,
           source := SegMode.clipDriven, sourceClipDurationSec := none }]) :=
  withTimeline_contiguous _

/-! ### Claim C2: duration allocator -/

theorem sum_dropLast_getLastD (l : List ℚ) (hl : l ≠ []) :
    l.dropLast.sum + l.getLastD 0 = l.sum := by
  conv_rhs => rw [← List.dropLast_append_getLast hl]
  rw [List.sum_append, List.sum_singleton, List.getLastD_eq_getLast?,
    List.getLast?_eq_getLast l hl, Option.getD_some]

theorem distribute_eq (totalSec : ℚ) (weights : List ℚ)
    (hpos : 0 < totalSec) (hne : weights ≠ []) :
    distributeDurationsByWeight totalSec weights =
      (distRounded totalSec weights).dropLast ++
        [max (1/10) (toFixed 3 ((distRounded totalSec weights).getLastD 0
          + toFixed 3 (totalSec - (distRounded totalSec weights).sum)))] := by
  rw [distributeDurationsByWeight, if_neg (by
    rw [not_or]
    exact ⟨not_le.mpr hpos, hne⟩)]
  rfl

/-- C2 (amended): for positive total and nonempty weights the allocator
returns one duration per weight, each at least 0.1; and whenever applying the
rounding residual to the last rounded duration does not fall below the 0.1s
floor (`distributeNoRefloor`), the output sum reconstructs the input total to
within 0.001. -/
theorem distributeDurations_spec (totalSec : ℚ) (weights : List ℚ)
    (hpos : 0 < totalSec) (hne : weights ≠ [])
    (hnf : distributeNoRefloor totalSec weights) :
    (distributeDurationsByWeight totalSec weights).length = weights.length ∧
    (∀ d ∈ distributeDurationsByWeight totalSec weights, 1/10 ≤ d) ∧
    |(distributeDurationsByWeight totalSec weights).sum - totalSec| ≤ 1/1000 := by
  have hnf' : 1/10 ≤ (distRounded totalSec weights).getLastD 0
      + toFixed 3 (totalSec - (distRounded totalSec weights).sum) := hnf
  rw [distribute_eq totalSec weights hpos hne]
  set r := distRounded totalSec weights with hr
  have hrne : r ≠ [] := by
    rw [hr, distRounded]
    simp [hne]
  have hrlen : r.length = weights.length := by
    rw [hr, distRounded]
    simp
  have hmem : ∀ x ∈ r, 1/10 ≤ x ∧ ∃ k : ℤ, x = (k:ℚ)/1000 := by
    intro x hx
    rw [hr, distRounded] at hx
    rcases List.mem_map.mp hx with ⟨v, _, rfl⟩
    refine ⟨le_max_left _ _, ?_⟩
    rcases toFixed_exists_int 3 v with ⟨k, hk⟩
    rcases max_choice (1/10 : ℚ) (toFixed 3 v) with h | h <;> rw [h]
    · exact ⟨100, by norm_num⟩
    · exact ⟨k, by rw [hk]; norm_num⟩
  refine ⟨?_, ?_, ?_⟩
  · rw [List.length_append, List.length_dropLast, hrlen]
    have : 0 < weights.length := List.length_pos.mpr hne
    simp
    omega
  · intro d hd
    rcases List.mem_append.mp hd with hd | hd
    · exact (hmem d (List.dropLast_sublist r |>.subset hd)).1
    · rw [List.mem_singleton.mp hd]
      exact le_max_left _ _
  · have hlastk : ∃ k : ℤ, r.getLastD 0 = (k:ℚ)/1000 := by
      have hmemlast : r.getLastD 0 ∈ r := by
        rw [List.getLastD_eq_getLast?, List.getLast?_eq_getLast r hrne, Option.getD_some]
        exact List.getLast_mem hrne
      exact (hmem _ hmemlast).2
    rcases hlastk with ⟨k1, hk1⟩
    rcases toFixed_exists_int 3 (totalSec - r.sum) with ⟨k2, hk2'⟩
    have hk2 : toFixed 3 (totalSec - r.sum) = (k2:ℚ)/1000 := by
      rw [hk2']
      norm_num
    have hfix : toFixed 3 (r.getLastD 0 + toFixed 3 (totalSec - r.sum))
        = r.getLastD 0 + toFixed 3 (totalSec - r.sum) := by
      rw [hk1, hk2, div_add_div_same, ← Int.cast_add]
      have h3 := toFixed_intCast_div 3 (k1 + k2)
      rw [show ((10:ℚ)^3) = 1000 by norm_num] at h3
      exact h3
    have hmax : max (1/10 : ℚ) (toFixed 3 (r.getLastD 0 + toFixed 3 (totalSec - r.sum)))
        = toFixed 3 (r.getLastD 0 + toFixed 3 (totalSec - r.sum)) := by
      apply max_eq_right
      rw [hfix]
      exact hnf'
    rw [List.sum_append, List.sum_singleton, hmax, hfix, ← add_assoc,
      sum_dropLast_getLastD r hrne]
    calc |r.sum + toFixed 3 (totalSec - r.sum) - totalSec|
        = |(totalSec - r.sum) - toFixed 3 (totalSec - r.sum)| := by
          rw [abs_sub_comm]
          congr 1
          ring
      _ ≤ 1/(2*10^3) := abs_sub_toFixed 3 _
      _ ≤ 1/1000 := by norm_num

/-- Witness for C2: the amended statement applied at the weight-zero
robustness scenario (`total = 10`, weights `[0, 5, -1]`), whose output sums
to 10 exactly. -/
theorem distributeDurations_spec_witness :
    (0:ℚ) < 10 ∧ ([0, 5, -1] : List ℚ) ≠ [] ∧ distributeNoRefloor 10 [0, 5, -1] ∧
    ((distributeDurationsByWeight 10 [0, 5, -1]).length = 3 ∧
      (∀ d ∈ distributeDurationsByWeight 10 [0, 5, -1], 1/10 ≤ d) ∧
      |(distributeDurationsByWeight 10 [0, 5, -1]).sum - 10| ≤ 1/1000) ∧
    (distributeDurationsByWeight 10 [0, 5, -1]).sum = 10 := by
  have hnf : distributeNoRefloor 10 [0, 5, -1] := by
    unfold distributeNoRefloor
    exact of_decide_eq_true (by with_unfolding_all rfl)
  have h := distributeDurations_spec 10 [0, 5, -1] (by norm_num) (by simp) hnf
  refine ⟨by norm_num, by simp, hnf, ⟨h.1.trans rfl, h.2.1, h.2.2⟩, ?_⟩
  with_unfolding_all rfl

/-- Counterexample to C2 as stated: with total `0.15` and weights `[1, 1]`
the 0.1s floor fires on both elements and on the corrected last element, so
the output `[0.1, 0.1]` sums to `0.2`, off by `0.05`, far beyond the claimed
0.001 tolerance. -/
theorem distributeDurations_counterexample :
    (0:ℚ) < 3/20 ∧ ([1, 1] : List ℚ) ≠ [] ∧
    distributeDurationsByWeight (3/20) [1, 1] = [1/10, 1/10] ∧
    ¬ |(distributeDurationsByWeight (3/20) [1, 1]).sum - 3/20| ≤ 1/1000 := by
  have h : distributeDurationsByWeight (3/20) [1, 1] = [1/10, 1/10] := by
    with_unfolding_all rfl
  refine ⟨by norm_num, by simp, h, ?_⟩
  rw [h]
  simp only [List.sum_cons, List.sum_nil]
  rw [show (1:ℚ)/10 + (1/10 + 0) - 3/20 = 1/20 by ring,
    abs_of_pos (by norm_num : (0:ℚ) < 1/20)]
  norm_num

/-! ### Alignment report projections -/

theorem mem_ite_singleton {α : Type} (c : Prop) [Decidable c] (a x : α) :
    x ∈ (if c then [a] else ([] : List α)) ↔ c ∧ x = a := by
  split_ifs with h <;> simp [h]

theorem buildAlignmentChecks_mode (format : VideoFormatId) (mode : SegMode) (v : Str)
    (segs : List ClipSegment) (audio : ℚ) (avail req : Nat) :
    (buildAlignmentChecks format mode v segs audio avail req).mode = mode := rfl

theorem buildAlignmentChecks_segments (format : VideoFormatId) (mode : SegMode) (v : Str)
    (segs : List ClipSegment) (audio : ℚ) (avail req : Nat) :
    (buildAlignmentChecks format mode v segs audio avail req).segments = segs := rfl

theorem buildAlignmentChecks_checks (format : VideoFormatId) (mode : SegMode) (v : Str)
    (segs : List ClipSegment) (audio : ℚ) (avail req : Nat) :
    (buildAlignmentChecks format mode v segs audio avail req).checks =
      { coverageRatio := toFixed 4 (computeCoverageRatio v (segs.map (fun s => s.text)))
        durationDeltaSec := toFixed 4 |(segs.map (fun s => s.durationSec)).sum - audio|
        emptySegmentCount := (segs.filter (fun s => (trimStr s.text).isEmpty)).length
        availableClipCount := avail
        requiredClipCount := req
        maxStretchRatio := toFixed 4 ((segs.map stretchRatioOf).foldl max 1)
        stretchSegmentIndex :=
          if mode = SegMode.clipDriven then
            (segs.map stretchRatioOf).findIdx?
              (fun r => r == (segs.map stretchRatioOf).foldl max 1)
          else none } := rfl

theorem buildAlignmentChecks_reasons (format : VideoFormatId) (mode : SegMode) (v : Str)
    (segs : List ClipSegment) (audio : ℚ) (avail req : Nat) :
    (buildAlignmentChecks format mode v segs audio avail req).reasons =
      (if mode = SegMode.clipDriven ∧
          toFixed 4 (computeCoverageRatio v (segs.map (fun s => s.text))) < 49/50 then
        [Reason.coverage_below_threshold] else [])
      ++ (if (if mode = SegMode.sceneDriven then (5:ℚ)/4
            else if mode = SegMode.clipDriven ∧
              (format = VideoFormatId.fiveMin ∨ format = VideoFormatId.elevenMin) then 5/4
            else 7/20)
          < toFixed 4 |(segs.map (fun s => s.durationSec)).sum - audio| then
        [Reason.duration_delta_too_high] else [])
      ++ (if 0 < (segs.filter (fun s => (trimStr s.text).isEmpty)).length then
        [Reason.empty_segment_text] else [])
      ++ (if mode = SegMode.clipDriven ∧
            (if mode = SegMode.clipDriven ∧
              (format = VideoFormatId.fiveMin ∨ format = VideoFormatId.elevenMin) then (9:ℚ)/2
            else 9/5)
            < toFixed 4 ((segs.map stretchRatioOf).foldl max 1) then
        [Reason.stretch_ratio_too_high
          (((segs.map stretchRatioOf).findIdx?
              (fun r => r == (segs.map stretchRatioOf).foldl max 1)).map
            (fun i => (i, toFixed 4 ((segs.map stretchRatioOf).foldl max 1))))] else [])
      ++ (if mode = SegMode.clipDriven ∧ avail < req then
        [Reason.insufficient_clip_count_for_context] else []) := rfl

theorem buildAlignmentChecks_passed (format : VideoFormatId) (mode : SegMode) (v : Str)
    (segs : List ClipSegment) (audio : ℚ) (avail req : Nat) :
    (buildAlignmentChecks format mode v segs audio avail req).passed =
      (buildAlignmentChecks format mode v segs audio avail req).reasons.isEmpty := rfl

/-! ### Claim C7: duration-delta threshold -/

/-- C7: `duration_delta_too_high` is reported exactly when the report's
`durationDeltaSec` (the 4-decimal rounding of the absolute difference between
the summed segment durations and the measured audio duration) exceeds the
mode-dependent threshold: 0.35s for clip-driven short-form content and 1.25s
both for scene-driven mode and for long-form clip-driven content. -/
theorem duration_delta_threshold_spec (format : VideoFormatId) (mode : SegMode) (v : Str)
    (segs : List ClipSegment) (audio : ℚ) (avail req : Nat) :
    Reason.duration_delta_too_high
        ∈ (buildAlignmentChecks format mode v segs audio avail req).reasons
      ↔ (if mode = SegMode.clipDriven ∧ format = VideoFormatId.short then (7:ℚ)/20 else 5/4)
          < (buildAlignmentChecks format mode v segs audio avail req).checks.durationDeltaSec := by
  rw [buildAlignmentChecks_reasons, buildAlignmentChecks_checks]
  cases mode <;> cases format <;>
    simp [List.mem_append, mem_ite_singleton]

/-- Witness for C7: at a concrete clip-driven short-form input with delta
4 > 0.35 the reason fires; at the same delta in scene-driven mode (threshold
1.25, delta 8) the reason also fires, and with delta 0 it does not. -/
theorem duration_delta_threshold_spec_witness :
    (Reason.duration_delta_too_high
      ∈ (buildAlignmentChecks VideoFormatId.short SegMode.clipDriven "a".data [exSeg] 6 1 1).reasons) ∧
    (Reason.duration_delta_too_high
      ∉ (buildAlignmentChecks VideoFormatId.short SegMode.clipDriven "a".data [exSeg] 2 1 1).reasons) := by
  constructor
  · exact (duration_delta_threshold_spec VideoFormatId.short SegMode.clipDriven "a".data
      [exSeg] 6 1 1).mpr (of_decide_eq_true (by with_unfolding_all rfl))
  · intro hmem
    have h := (duration_delta_threshold_spec VideoFormatId.short SegMode.clipDriven "a".data
      [exSeg] 2 1 1).mp hmem
    exact absurd h (of_decide_eq_true (by with_unfolding_all rfl))

/-! ### Claim C5: coverage check is clip-driven only -/

/-- C5: in clip-driven mode the `coverage_below_threshold` reason is present
exactly when the report's `coverageRatio` is below 0.98, while a scene-driven
report never contains a coverage failure regardless of the ratio. -/
theorem coverage_check_clip_driven_only (format : VideoFormatId) (v : Str)
    (segs : List ClipSegment) (audio : ℚ) (avail req : Nat) :
    (Reason.coverage_below_threshold
        ∈ (buildAlignmentChecks format SegMode.clipDriven v segs audio avail req).reasons
      ↔ (buildAlignmentChecks format SegMode.clipDriven v segs audio avail req).checks.coverageRatio
          < 49/50) ∧
    Reason.coverage_below_threshold
      ∉ (buildAlignmentChecks format SegMode.sceneDriven v segs audio avail req).reasons := by
  constructor
  · rw [buildAlignmentChecks_reasons, buildAlignmentChecks_checks]
    simp [List.mem_append, mem_ite_singleton]
  · rw [buildAlignmentChecks_reasons]
    simp [List.mem_append, mem_ite_singleton]

/-- Witness for C5: the coverage scenario (narration of 25 normalized
characters, joined segment text of 19, ratio 0.76) fails in clip-driven mode
and raises no coverage failure in scene-driven mode. -/
theorem coverage_check_clip_driven_only_witness :
    Reason.coverage_below_threshold
      ∈ (buildAlignmentChecks VideoFormatId.short SegMode.clipDriven exNarration
          [exCoverageSeg] 2 1 1).reasons ∧
    Reason.coverage_below_threshold
      ∉ (buildAlignmentChecks VideoFormatId.short SegMode.sceneDriven exNarration
          [exCoverageSeg] 2 1 1).reasons := by
  constructor
  · exact (coverage_check_clip_driven_only VideoFormatId.short exNarration
      [exCoverageSeg] 2 1 1).1.mpr (of_decide_eq_true (by with_unfolding_all rfl))
  · exact (coverage_check_clip_driven_only VideoFormatId.short exNarration
      [exCoverageSeg] 2 1 1).2

/-! ### Claim C1: empty-segment text blocks, with structured payload -/

/-- C1: a SegmentMap containing a segment with empty trimmed text always
yields a failing report carrying `empty_segment_text`, and
`ensureAlignmentOrBlock` on that report throws the structured
`ALIGNMENT_BLOCKED` payload whose `reasons` copy the report's reasons and
whose `requiredFiles` lists `clip_0.mp4 ...` of length
`max(sceneCount, requiredClipCount)`. -/
theorem alignment_empty_segment_blocks (format : VideoFormatId) (mode : SegMode) (v : Str)
    (segs : List ClipSegment) (audio : ℚ) (avail req scenes : Nat)
    (h : ∃ s ∈ segs, (trimStr s.text).isEmpty = true) :
    (buildAlignmentChecks format mode v segs audio avail req).passed = false ∧
    Reason.empty_segment_text
      ∈ (buildAlignmentChecks format mode v segs audio avail req).reasons ∧
    ∃ p : BlockedPayload,
      ensureAlignmentOrBlock (buildAlignmentChecks format mode v segs audio avail req) scenes
        = Except.error p ∧
      p.reasons = (buildAlignmentChecks format mode v segs audio avail req).reasons ∧
      p.requiredFiles.length = max scenes req := by
  have hcount : 0 < (segs.filter (fun s => (trimStr s.text).isEmpty)).length := by
    rcases h with ⟨s, hs, he⟩
    exact List.length_pos.mpr (List.ne_nil_of_mem (List.mem_filter.mpr ⟨hs, he⟩))
  have hmem : Reason.empty_segment_text
      ∈ (buildAlignmentChecks format mode v segs audio avail req).reasons := by
    rw [buildAlignmentChecks_reasons]
    simp [List.mem_append, mem_ite_singleton, hcount]
  have hne : (buildAlignmentChecks format mode v segs audio avail req).reasons ≠ [] :=
    List.ne_nil_of_mem hmem
  have hpassed : (buildAlignmentChecks format mode v segs audio avail req).passed = false := by
    rw [buildAlignmentChecks_passed]
    simpa using hne
  refine ⟨hpassed, hmem, ?_⟩
  unfold ensureAlignmentOrBlock
  rw [hpassed]
  simp only [Bool.false_eq_true, if_false]
  refine ⟨_, rfl, rfl, ?_⟩
  rw [List.length_map, List.length_range, buildAlignmentChecks_checks]

/-- Witness for C1: the five-segment clip-driven SegmentMap with one
empty-text segment (scene count 3, required clips 5: the payload lists 5
files). -/
theorem alignment_empty_segment_blocks_witness :
    (buildAlignmentChecks VideoFormatId.short SegMode.clipDriven "a b c d".data
        exSegs5 10 5 5).passed = false ∧
    Reason.empty_segment_text
      ∈ (buildAlignmentChecks VideoFormatId.short SegMode.clipDriven "a b c d".data
          exSegs5 10 5 5).reasons ∧
    ∃ p : BlockedPayload,
      ensureAlignmentOrBlock
          (buildAlignmentChecks VideoFormatId.short SegMode.clipDriven "a b c d".data
            exSegs5 10 5 5) 3
        = Except.error p ∧
      p.reasons = (buildAlignmentChecks VideoFormatId.short SegMode.clipDriven "a b c d".data
          exSegs5 10 5 5).reasons ∧
      p.requiredFiles.length = max 3 5 :=
  alignment_empty_segment_blocks VideoFormatId.short SegMode.clipDriven "a b c d".data
    exSegs5 10 5 5 3 ⟨exSegEmpty, by decide, by decide⟩

/-! ### Claim C6: stretch-ratio check -/

theorem le_foldl_max_init : ∀ (l : List ℚ) (a : ℚ), a ≤ l.foldl max a := by
  intro l
  induction l with
  | nil => intro a; exact le_rfl
  | cons y l ih =>
    intro a
    calc a ≤ max a y := le_max_left a y
      _ ≤ l.foldl max (max a y) := ih (max a y)

theorem mem_le_foldl_max : ∀ (l : List ℚ) (a : ℚ), ∀ x ∈ l, x ≤ l.foldl max a := by
  intro l
  induction l with
  | nil => intro a x hx; simp at hx
  | cons y l ih =>
    intro a x hx
    rcases List.mem_cons.mp hx with rfl | hx
    · calc x ≤ max a x := le_max_right a x
        _ ≤ l.foldl max (max a x) := le_foldl_max_init l (max a x)
    · exact ih (max a y) x hx

theorem foldl_max_choice : ∀ (l : List ℚ) (a : ℚ), l.foldl max a = a ∨ l.foldl max a ∈ l := by
  intro l
  induction l with
  | nil => intro a; exact Or.inl rfl
  | cons y l ih =>
    intro a
    rcases ih (max a y) with h | h
    · rcases max_choice a y with hm | hm
      · left
        show l.foldl max (max a y) = a
        rw [h, hm]
      · right
        show l.foldl max (max a y) ∈ y :: l
        rw [h, hm]
        simp
    · right
      exact List.mem_cons_of_mem y h

/-- C6: in clip-driven mode the stretch reason fires exactly when the
report's `maxStretchRatio` exceeds the format threshold (1.8 short-form, 4.5
long-form); when it fires, the emitted reason names the first index
attaining the maximal per-segment stretch ratio; and a scene-driven report
never contains a stretch-ratio reason. -/
theorem stretch_check_spec (format : VideoFormatId) (v : Str) (segs : List ClipSegment)
    (audio : ℚ) (avail req : Nat) :
    ((∃ p, Reason.stretch_ratio_too_high p
        ∈ (buildAlignmentChecks format SegMode.clipDriven v segs audio avail req).reasons)
      ↔ (if format = VideoFormatId.short then (9:ℚ)/5 else 9/2)
          < (buildAlignmentChecks format SegMode.clipDriven v segs
              audio avail req).checks.maxStretchRatio) ∧
    ((if format = VideoFormatId.short then (9:ℚ)/5 else 9/2)
        < (buildAlignmentChecks format SegMode.clipDriven v segs
            audio avail req).checks.maxStretchRatio →
      ∃ i, (segs.map stretchRatioOf).get? i = some ((segs.map stretchRatioOf).foldl max 1) ∧
        (∀ r ∈ segs.map stretchRatioOf, r ≤ (segs.map stretchRatioOf).foldl max 1) ∧
        Reason.stretch_ratio_too_high
            (some (i, (buildAlignmentChecks format SegMode.clipDriven v segs
              audio avail req).checks.maxStretchRatio))
          ∈ (buildAlignmentChecks format SegMode.clipDriven v segs audio avail req).reasons) ∧
    (∀ p, Reason.stretch_ratio_too_high p
      ∉ (buildAlignmentChecks format SegMode.sceneDriven v segs audio avail req).reasons) := by
  refine ⟨?_, ?_, ?_⟩
  · rw [buildAlignmentChecks_reasons, buildAlignmentChecks_checks]
    cases format <;> simp [List.mem_append, mem_ite_singleton]
  · intro hlt
    have hltm : (if format = VideoFormatId.short then (9:ℚ)/5 else 9/2)
        < toFixed 4 ((segs.map stretchRatioOf).foldl max 1) := by
      rw [buildAlignmentChecks_checks] at hlt
      exact hlt
    have h95 : (9:ℚ)/5 < toFixed 4 ((segs.map stretchRatioOf).foldl max 1) := by
      refine lt_of_le_of_lt ?_ hltm
      split_ifs <;> norm_num
    have h1m : (1:ℚ) < (segs.map stretchRatioOf).foldl max 1 := by
      have habs := abs_sub_toFixed 4 ((segs.map stretchRatioOf).foldl max 1)
      have habs' := (abs_le.mp habs).1
      have hc : (1:ℚ) / (2 * 10 ^ 4) = 1/20000 := by norm_num
      rw [hc] at habs'
      linarith
    have hmemr : (segs.map stretchRatioOf).foldl max 1 ∈ segs.map stretchRatioOf := by
      rcases foldl_max_choice (segs.map stretchRatioOf) 1 with he | hin
      · rw [he] at h1m
        exact absurd h1m (lt_irrefl 1)
      · exact hin
    have hex : ∃ x ∈ segs.map stretchRatioOf,
        (fun r => r == (segs.map stretchRatioOf).foldl max 1) x = true :=
      ⟨(segs.map stretchRatioOf).foldl max 1, hmemr, by simp⟩
    have hfind : (segs.map stretchRatioOf).findIdx?
        (fun r => r == (segs.map stretchRatioOf).foldl max 1)
        = some ((segs.map stretchRatioOf).findIdx
            (fun r => r == (segs.map stretchRatioOf).foldl max 1)) :=
      List.findIdx?_eq_some_of_exists hex
    have hilen : (segs.map stretchRatioOf).findIdx
        (fun r => r == (segs.map stretchRatioOf).foldl max 1)
        < (segs.map stretchRatioOf).length :=
      List.findIdx_lt_length_of_exists hex
    have hget : (segs.map stretchRatioOf).get ⟨_, hilen⟩
        = (segs.map stretchRatioOf).foldl max 1 := by
      have hw := List.findIdx_get (w := hilen)
      simpa using hw
    refine ⟨(segs.map stretchRatioOf).findIdx
      (fun r => r == (segs.map stretchRatioOf).foldl max 1), ?_, ?_, ?_⟩
    · rw [List.get?_eq_some]
      exact ⟨hilen, hget⟩
    · exact fun r hr => mem_le_foldl_max (segs.map stretchRatioOf) 1 r hr
    · rw [buildAlignmentChecks_reasons, buildAlignmentChecks_checks]
      cases format <;>
        simp_all [List.mem_append, mem_ite_singleton, hfind]
  · rw [buildAlignmentChecks_reasons]
    intro p
    simp [List.mem_append, mem_ite_singleton]

/-- Witness for C6: the stretch scenario (`durationSec = 9`,
`sourceClipDurationSec = 3`, ratio 3.0 > 1.8) in short-form clip-driven mode
names segment index 0; the same input in scene-driven mode carries no
stretch reason. -/
theorem stretch_check_spec_witness :
    (∃ i, ([exStretchSeg].map stretchRatioOf).get? i
        = some (([exStretchSeg].map stretchRatioOf).foldl max 1) ∧
      (∀ r ∈ [exStretchSeg].map stretchRatioOf,
        r ≤ ([exStretchSeg].map stretchRatioOf).foldl max 1) ∧
      Reason.stretch_ratio_too_high
          (some (i, (buildAlignmentChecks VideoFormatId.short SegMode.clipDriven "a".data
            [exStretchSeg] 9 1 1).checks.maxStretchRatio))
        ∈ (buildAlignmentChecks VideoFormatId.short SegMode.clipDriven "a".data
            [exStretchSeg] 9 1 1).reasons) ∧
    (∀ p, Reason.stretch_ratio_too_high p
      ∉ (buildAlignmentChecks VideoFormatId.short SegMode.sceneDriven "a".data
          [exStretchSeg] 9 1 1).reasons) := by
  have h := stretch_check_spec VideoFormatId.short "a".data [exStretchSeg] 9 1 1
  exact ⟨h.2.1 (of_decide_eq_true (by with_unfolding_all rfl)), h.2.2⟩

/-! ### Caption chunker: inner loop lemmas -/

theorem chunkLoop_length_le_budget (minDur segEnd segDur totalLen : ℚ) :
    ∀ (chunks : List Str) (b : Nat) (t : ℚ),
      (chunkLoop minDur segEnd segDur totalLen b t chunks).length ≤ b := by
  intro chunks
  induction chunks with
  | nil => intro b t; simp [chunkLoop.eq_def]
  | cons ch rest ih =>
    intro b t
    rw [chunkLoop.eq_def]
    dsimp only
    by_cases hb : b = 0
    · simp [hb]
    · rw [if_neg hb]
      cases rest with
      | nil =>
        dsimp only
        by_cases ht : t < segEnd
        · rw [if_pos ht]
          simp only [List.length_cons]
          have h := ih (b - 1) segEnd
          omega
        · rw [if_neg ht]
          have h := ih b segEnd
          omega
      | cons q rest2 =>
        dsimp only
        by_cases ht : t < min segEnd (t + max minDur (segDur * (ch.length : ℚ) / totalLen))
        · rw [if_pos ht]
          simp only [List.length_cons]
          have h := ih (b - 1) (min segEnd (t + max minDur (segDur * (ch.length : ℚ) / totalLen)))
          omega
        · rw [if_neg ht]
          have h := ih b (min segEnd (t + max minDur (segDur * (ch.length : ℚ) / totalLen)))
          omega

theorem chunkLoop_length_le_chunks (minDur segEnd segDur totalLen : ℚ) :
    ∀ (chunks : List Str) (b : Nat) (t : ℚ),
      (chunkLoop minDur segEnd segDur totalLen b t chunks).length ≤ chunks.length := by
  intro chunks
  induction chunks with
  | nil => intro b t; simp [chunkLoop.eq_def]
  | cons ch rest ih =>
    intro b t
    rw [chunkLoop.eq_def]
    dsimp only
    by_cases hb : b = 0
    · simp [hb]
    · rw [if_neg hb]
      cases rest with
      | nil =>
        dsimp only
        by_cases ht : t < segEnd
        · rw [if_pos ht]
          simp only [List.length_cons]
          have h := ih (b - 1) segEnd
          omega
        · rw [if_neg ht]
          have h := ih b segEnd
          simp only [List.length_cons] at h ⊢
          omega
      | cons q rest2 =>
        dsimp only
        by_cases ht : t < min segEnd (t + max minDur (segDur * (ch.length : ℚ) / totalLen))
        · rw [if_pos ht]
          have h := ih (b - 1) (min segEnd (t + max minDur (segDur * (ch.length : ℚ) / totalLen)))
          simp only [List.length_cons] at h ⊢
          omega
        · rw [if_neg ht]
          have h := ih b (min segEnd (t + max minDur (segDur * (ch.length : ℚ) / totalLen)))
          simp only [List.length_cons] at h ⊢
          omega

theorem chunkLoop_text_mem (minDur segEnd segDur totalLen : ℚ) :
    ∀ (chunks : List Str) (b : Nat) (t : ℚ),
      ∀ cue ∈ chunkLoop minDur segEnd segDur totalLen b t chunks, cue.text ∈ chunks := by
  intro chunks
  induction chunks with
  | nil => intro b t cue h; simp [chunkLoop.eq_def] at h
  | cons ch rest ih =>
    intro b t cue h
    rw [chunkLoop.eq_def] at h
    dsimp only at h
    by_cases hb : b = 0
    · simp [hb] at h
    · rw [if_neg hb] at h
      cases rest with
      | nil =>
        dsimp only at h
        split_ifs at h with ht
        · rcases List.mem_cons.mp h with rfl | h2
          · simp
          · exact List.mem_cons_of_mem ch (ih (b - 1) segEnd cue h2)
        · exact List.mem_cons_of_mem ch (ih b segEnd cue h)
      | cons q rest2 =>
        dsimp only at h
        split_ifs at h with ht
        · rcases List.mem_cons.mp h with rfl | h2
          · simp
          · exact List.mem_cons_of_mem ch (ih (b - 1) _ cue h2)
        · exact List.mem_cons_of_mem ch (ih b _ cue h)

theorem chunkLoop_empty_of_le (minDur segEnd segDur totalLen : ℚ) (hmd : 0 < minDur) :
    ∀ (chunks : List Str) (b : Nat) (t : ℚ), segEnd ≤ t →
      chunkLoop minDur segEnd segDur totalLen b t chunks = [] := by
  intro chunks
  induction chunks with
  | nil => intro b t _; simp [chunkLoop.eq_def]
  | cons ch rest ih =>
    intro b t hle
    rw [chunkLoop.eq_def]
    dsimp only
    by_cases hb : b = 0
    · simp [hb]
    · rw [if_neg hb]
      cases rest with
      | nil =>
        dsimp only
        rw [if_neg (not_lt.mpr hle)]
        simp [chunkLoop.eq_def]
      | cons q rest2 =>
        dsimp only
        have hxpos : (0:ℚ) < max minDur (segDur * (ch.length : ℚ) / totalLen) :=
          lt_of_lt_of_le hmd (le_max_left _ _)
        by_cases ht : t < min segEnd (t + max minDur (segDur * (ch.length : ℚ) / totalLen))
        · exact absurd (lt_of_lt_of_le ht (min_le_left _ _)) (not_lt.mpr hle)
        · rw [if_neg ht]
          exact ih b _ (le_min le_rfl (by linarith))

theorem chunkLoop_bounds (minDur segEnd segDur totalLen : ℚ) (hmd : 0 < minDur) :
    ∀ (chunks : List Str) (b : Nat) (t : ℚ), t ≤ segEnd →
      ∀ cue ∈ chunkLoop minDur segEnd segDur totalLen b t chunks,
        t ≤ cue.startSec ∧ cue.startSec < cue.endSec ∧ cue.endSec ≤ segEnd := by
  intro chunks
  induction chunks with
  | nil => intro b t _ cue h; simp [chunkLoop.eq_def] at h
  | cons ch rest ih =>
    intro b t hle cue h
    rw [chunkLoop.eq_def] at h
    dsimp only at h
    by_cases hb : b = 0
    · simp [hb] at h
    · rw [if_neg hb] at h
      cases rest with
      | nil =>
        dsimp only at h
        split_ifs at h with ht
        · rcases List.mem_cons.mp h with rfl | h2
          · exact ⟨le_rfl, ht, le_rfl⟩
          · simp [chunkLoop.eq_def] at h2
        · simp [chunkLoop.eq_def] at h
      | cons q rest2 =>
        dsimp only at h
        have hxpos : (0:ℚ) < max minDur (segDur * (ch.length : ℚ) / totalLen) :=
          lt_of_lt_of_le hmd (le_max_left _ _)
        have hege : t ≤ min segEnd (t + max minDur (segDur * (ch.length : ℚ) / totalLen)) :=
          le_min hle (by linarith)
        have hele : min segEnd (t + max minDur (segDur * (ch.length : ℚ) / totalLen)) ≤ segEnd :=
          min_le_left _ _
        split_ifs at h with ht
        · rcases List.mem_cons.mp h with rfl | h2
          · exact ⟨le_rfl, ht, hele⟩
          · have hrec := ih (b - 1) _ hele cue h2
            exact ⟨le_trans hege hrec.1, hrec.2.1, hrec.2.2⟩
        · have hrec := ih b _ hele cue h
          exact ⟨le_trans hege hrec.1, hrec.2.1, hrec.2.2⟩


theorem tokens_eq_nil : ∀ {t : Str}, tokens t = [] → ∀ c ∈ t, isWs c = true := by
  intro t
  induction t with
  | nil => intro _ c hc; simp at hc
  | cons a cs ih =>
    intro h c hc
    by_cases ha : isWs a
    · rw [tokens_cons_ws ha] at h
      rcases List.mem_cons.mp hc with rfl | hc2
      · exact ha
      · exact ih h c hc2
    · rw [tokens_cons_nonws (by simpa using ha)] at h
      simp at h

theorem tokens_trim_ne_nil {s : Str} (h : trimStr s ≠ []) : tokens (trimStr s) ≠ [] := by
  intro hcon
  have hall := tokens_eq_nil hcon
  have htrim : trimStr s = dropTrailingWs (s.dropWhile isWs) := rfl
  rw [htrim] at h hall
  cases hv : s.dropWhile isWs with
  | nil => rw [hv] at h; exact h (by simp [dropTrailingWs])
  | cons d rest =>
    have hd : isWs d = false := dropWhile_head_false isWs s d rest hv
    rw [hv] at h hall
    rw [dropTrailing_cons] at h hall
    by_cases hrest : dropTrailingWs rest = []
    · rw [if_pos hrest, if_neg (by simp [hd])] at h hall
      exact absurd (hall d (by simp)) (by simp [hd])
    · rw [if_neg hrest] at hall
      exact absurd (hall d (by simp)) (by simp [hd])

theorem chunkWordsGo_ne_nil (maxWords : Nat) :
    ∀ (ws acc : List Str), acc ≠ [] ∨ ws ≠ [] → chunkWordsGo maxWords acc ws ≠ [] := by
  intro ws
  induction ws with
  | nil =>
    intro acc hne
    rcases hne with hacc | hws
    · rw [chunkWordsGo]
      rw [if_neg (by simpa using hacc)]
      simp
    · exact absurd rfl hws
  | cons w ws ih =>
    intro acc _
    rw [chunkWordsGo]
    by_cases hf : maxWords ≤ (w :: acc).length
    · rw [if_pos hf]; simp
    · rw [if_neg hf]
      exact ih (w :: acc) (Or.inl (by simp))

theorem chunkWordsGo_mem (maxWords : Nat) :
    ∀ (ws acc : List Str), acc.length < maxWords →
      (∀ w ∈ acc, w ≠ [] ∧ ∀ c ∈ w, isWs c = false) →
      (∀ w ∈ ws, w ≠ [] ∧ ∀ c ∈ w, isWs c = false) →
      ∀ ch ∈ chunkWordsGo maxWords acc ws,
        tokens ch ≠ [] ∧ (tokens ch).length ≤ maxWords := by
  intro ws
  induction ws with
  | nil =>
    intro acc hlen hacc _ ch hch
    rw [chunkWordsGo] at hch
    by_cases he : acc.isEmpty
    · rw [if_pos he] at hch; simp at hch
    · rw [if_neg he] at hch
      have hch2 : ch = joinSp acc.reverse := by simpa using hch
      subst hch2
      have hrev : ∀ w ∈ acc.reverse, w ≠ [] ∧ ∀ c ∈ w, isWs c = false :=
        fun w hw => hacc w (List.mem_reverse.mp hw)
      rw [tokens_joinSp_words hrev]
      refine ⟨?_, ?_⟩
      · simpa using fun hc => he (by simp [hc])
      · simpa using le_of_lt hlen
  | cons w ws ih =>
    intro acc hlen hacc hws ch hch
    rw [chunkWordsGo] at hch
    have hw := hws w (by simp)
    have hacc' : ∀ u ∈ w :: acc, u ≠ [] ∧ ∀ c ∈ u, isWs c = false := by
      intro u hu
      rcases List.mem_cons.mp hu with rfl | hu2
      · exact hw
      · exact hacc u hu2
    by_cases hf : maxWords ≤ (w :: acc).length
    · rw [if_pos hf] at hch
      rcases List.mem_cons.mp hch with rfl | hch2
      · have hrev : ∀ u ∈ (w :: acc).reverse, u ≠ [] ∧ ∀ c ∈ u, isWs c = false :=
          fun u hu => hacc' u (List.mem_reverse.mp hu)
        rw [tokens_joinSp_words hrev]
        constructor
        · simp
        · simp only [List.length_reverse, List.length_cons]
          omega
      · have hmw : 0 < maxWords := by simp at hf; omega
        exact ih [] (by simpa using hmw) (by simp)
          (fun u hu => hws u (by simp [hu])) ch hch2
    · rw [if_neg hf] at hch
      exact ih (w :: acc) (by simp at hf ⊢; omega) hacc'
        (fun u hu => hws u (by simp [hu])) ch hch

theorem chunkLoop_chain (minDur segEnd segDur totalLen : ℚ) (hmd : 0 < minDur) :
    ∀ (chunks : List Str) (b : Nat) (t : ℚ), t ≤ segEnd →
      (∀ c ∈ (chunkLoop minDur segEnd segDur totalLen b t chunks).head?, c.startSec = t) ∧
      (chunkLoop minDur segEnd segDur totalLen b t chunks).Chain'
        (fun a c => a.endSec = c.startSec) := by
  intro chunks
  induction chunks with
  | nil => intro b t _; simp [chunkLoop.eq_def]
  | cons ch rest ih =>
    intro b t hle
    rw [chunkLoop.eq_def]
    dsimp only
    by_cases hb : b = 0
    · simp [hb]
    · rw [if_neg hb]
      cases rest with
      | nil =>
        dsimp only
        by_cases ht : t < segEnd
        · rw [if_pos ht]
          constructor
          · intro c hc
            simp [chunkLoop.eq_def] at hc
            rw [← hc]
          · simp [chunkLoop.eq_def]
        · rw [if_neg ht]
          simp [chunkLoop.eq_def]
      | cons q rest2 =>
        dsimp only
        have hxpos : (0:ℚ) < max minDur (segDur * (ch.length : ℚ) / totalLen) :=
          lt_of_lt_of_le hmd (le_max_left _ _)
        have hele : min segEnd (t + max minDur (segDur * (ch.length : ℚ) / totalLen)) ≤ segEnd :=
          min_le_left _ _
        by_cases ht : t < min segEnd (t + max minDur (segDur * (ch.length : ℚ) / totalLen))
        · rw [if_pos ht]
          have hih := ih (b - 1) (min segEnd (t + max minDur (segDur * (ch.length : ℚ) / totalLen))) hele
          constructor
          · intro c hc
            simp only [List.head?_cons, Option.mem_def, Option.some.injEq] at hc
            rw [← hc]
          · rw [List.chain'_cons']
            exact ⟨fun c hc => (hih.1 c hc).symm, hih.2⟩
        · rw [if_neg ht]
          have hse : segEnd ≤ t := by
            by_contra hcon
            push_neg at hcon
            exact ht (lt_min hcon (by linarith))
          have hse2 : segEnd ≤ min segEnd (t + max minDur (segDur * (ch.length : ℚ) / totalLen)) :=
            le_min le_rfl (by linarith)
          rw [chunkLoop_empty_of_le minDur segEnd segDur totalLen hmd (q :: rest2) b _ hse2]
          simp

theorem chunkLoop_last_end (minDur segEnd segDur totalLen : ℚ) (hmd : 0 < minDur) :
    ∀ (chunks : List Str) (b : Nat) (t : ℚ), t < segEnd → chunks ≠ [] → chunks.length ≤ b →
      ∃ c, (chunkLoop minDur segEnd segDur totalLen b t chunks).getLast? = some c ∧
        c.endSec = segEnd := by
  intro chunks
  induction chunks with
  | nil => intro b t _ hne _; exact absurd rfl hne
  | cons ch rest ih =>
    intro b t hlt _ hblen
    have hb : ¬ b = 0 := by simp at hblen; omega
    rw [chunkLoop.eq_def]
    dsimp only
    rw [if_neg hb]
    cases rest with
    | nil =>
      dsimp only
      rw [if_pos hlt]
      exact ⟨{ startSec := t, endSec := segEnd, text := ch }, by simp [chunkLoop.eq_def], rfl⟩
    | cons q rest2 =>
      dsimp only
      have hxpos : (0:ℚ) < max minDur (segDur * (ch.length : ℚ) / totalLen) :=
        lt_of_lt_of_le hmd (le_max_left _ _)
      have hele : min segEnd (t + max minDur (segDur * (ch.length : ℚ) / totalLen)) ≤ segEnd :=
        min_le_left _ _
      have ht : t < min segEnd (t + max minDur (segDur * (ch.length : ℚ) / totalLen)) :=
        lt_min hlt (by linarith)
      rw [if_pos ht]
      rcases lt_or_eq_of_le hele with helt | heq
      · have hih := ih (b - 1) _ helt (by simp) (by simp at hblen ⊢; omega)
        rcases hih with ⟨c, hlast, hend⟩
        refine ⟨c, ?_, hend⟩
        cases htail : chunkLoop minDur segEnd segDur totalLen (b - 1)
            (min segEnd (t + max minDur (segDur * (ch.length : ℚ) / totalLen))) (q :: rest2) with
        | nil => rw [htail] at hlast; simp at hlast
        | cons c2 l2 =>
          rw [htail] at hlast
          rw [List.getLast?_cons_cons]
          exact hlast
      · have hnil : chunkLoop minDur segEnd segDur totalLen (b - 1)
            (min segEnd (t + max minDur (segDur * (ch.length : ℚ) / totalLen))) (q :: rest2) = [] :=
          chunkLoop_empty_of_le minDur segEnd segDur totalLen hmd (q :: rest2) (b - 1) _ (ge_of_eq heq)
        rw [hnil]
        exact ⟨{ startSec := t,
                 endSec := min segEnd (t + max minDur (segDur * (ch.length : ℚ) / totalLen)),
                 text := ch }, by simp, heq⟩

theorem flatten_map_nil {α β : Type} (l : List α) :
    (l.map (fun _ => ([] : List β))).flatten = [] := by
  induction l with
  | nil => rfl
  | cons a l ih => simp [ih]

theorem forall2_map_nil {α β : Type} {P : α → List β → Prop} (h : ∀ s, P s [])
    (l : List α) : List.Forall₂ P l (l.map (fun _ => [])) := by
  induction l with
  | nil => exact List.Forall₂.nil
  | cons a l ih => exact List.Forall₂.cons (h a) ih

theorem subChunksGo_eq_flatten (mw : Nat) (md : ℚ) :
    ∀ (segs : List ClipSegment) (b : Nat),
      subChunksGo mw md b segs = (cueBlocks mw md b segs).flatten := by
  intro segs
  induction segs with
  | nil => intro b; simp [subChunksGo, cueBlocks]
  | cons seg rest ih =>
    intro b
    rw [subChunksGo, cueBlocks]
    dsimp only
    by_cases hraw : (trimStr seg.text).isEmpty
    · rw [if_pos hraw, if_pos hraw, List.flatten_cons, List.nil_append, ih]
    · rw [if_neg hraw, if_neg hraw]
      by_cases hb : b = 0
      · rw [if_pos hb, if_pos hb, flatten_map_nil]
      · rw [if_neg hb, if_neg hb]
        by_cases hwords : (segWords (trimStr seg.text)).isEmpty
        · rw [if_pos hwords, if_pos hwords, List.flatten_cons, List.nil_append, ih]
        · rw [if_neg hwords, if_neg hwords, List.flatten_cons, ih]

theorem subChunksGo_length_le (mw : Nat) (md : ℚ) :
    ∀ (segs : List ClipSegment) (b : Nat), (subChunksGo mw md b segs).length ≤ b := by
  intro segs
  induction segs with
  | nil => intro b; simp [subChunksGo]
  | cons seg rest ih =>
    intro b
    rw [subChunksGo]
    dsimp only
    by_cases hraw : (trimStr seg.text).isEmpty
    · rw [if_pos hraw]; exact ih b
    · rw [if_neg hraw]
      by_cases hb : b = 0
      · rw [if_pos hb]; simp [hb]
      · rw [if_neg hb]
        by_cases hwords : (segWords (trimStr seg.text)).isEmpty
        · rw [if_pos hwords]; exact ih b
        · rw [if_neg hwords]
          rw [List.length_append]
          have h1 := chunkLoop_length_le_budget MIN_CHUNK_DURATION_SEC seg.endSec
            (max (1/100) (seg.endSec - seg.startSec))
            ((chunksTotalLen (segChunks mw (trimStr seg.text)) : ℚ))
            (segChunks mw (trimStr seg.text)) b seg.startSec
          have h2 := ih (b - (chunkLoop md seg.endSec
            (max (1/100) (seg.endSec - seg.startSec))
            ((chunksTotalLen (segChunks mw (trimStr seg.text)) : ℚ)) b seg.startSec
            (segChunks mw (trimStr seg.text))).length)
          have h1' := chunkLoop_length_le_budget md seg.endSec
            (max (1/100) (seg.endSec - seg.startSec))
            ((chunksTotalLen (segChunks mw (trimStr seg.text)) : ℚ))
            (segChunks mw (trimStr seg.text)) b seg.startSec
          omega

theorem cueBlocks_forall2 (mw : Nat) (md : ℚ) (hmw : 0 < mw) (hmd : 0 < md) :
    ∀ (segs : List ClipSegment) (b : Nat), (∀ seg ∈ segs, seg.startSec ≤ seg.endSec) →
      List.Forall₂ (fun seg block =>
        (∀ cue ∈ block,
          seg.startSec ≤ cue.startSec ∧ cue.startSec < cue.endSec ∧ cue.endSec ≤ seg.endSec ∧
          tokens cue.text ≠ [] ∧ (tokens cue.text).length ≤ mw) ∧
        block.Chain' (fun a c => a.endSec = c.startSec)) segs (cueBlocks mw md b segs) := by
  intro segs
  induction segs with
  | nil => intro b _; rw [cueBlocks]; exact List.Forall₂.nil
  | cons seg rest ih =>
    intro b hsegs
    have hseg := hsegs seg (by simp)
    have hrest : ∀ s ∈ rest, s.startSec ≤ s.endSec := fun s hs => hsegs s (by simp [hs])
    rw [cueBlocks]
    dsimp only
    by_cases hraw : (trimStr seg.text).isEmpty
    · rw [if_pos hraw]
      exact List.Forall₂.cons ⟨by simp, List.chain'_nil⟩ (ih b hrest)
    · rw [if_neg hraw]
      by_cases hb : b = 0
      · rw [if_pos hb]
        exact forall2_map_nil (fun s => ⟨by simp, List.chain'_nil⟩) (seg :: rest)
      · rw [if_neg hb]
        by_cases hwords : (segWords (trimStr seg.text)).isEmpty
        · rw [if_pos hwords]
          exact List.Forall₂.cons ⟨by simp, List.chain'_nil⟩ (ih b hrest)
        · rw [if_neg hwords]
          refine List.Forall₂.cons ⟨?_, ?_⟩ (ih _ hrest)
          · intro cue hcue
            have hbounds := chunkLoop_bounds md seg.endSec
              (max (1/100) (seg.endSec - seg.startSec))
              ((chunksTotalLen (segChunks mw (trimStr seg.text)) : ℚ)) hmd
              (segChunks mw (trimStr seg.text)) b seg.startSec hseg cue hcue
            have htext := chunkLoop_text_mem md seg.endSec
              (max (1/100) (seg.endSec - seg.startSec))
              ((chunksTotalLen (segChunks mw (trimStr seg.text)) : ℚ))
              (segChunks mw (trimStr seg.text)) b seg.startSec cue hcue
            have hchunk := chunkWordsGo_mem mw (segWords (trimStr seg.text)) []
              (by simpa using hmw) (by simp) (fun w hw => tokens_mem hw) cue.text htext
            exact ⟨hbounds.1, hbounds.2.1, hbounds.2.2, hchunk.1, hchunk.2⟩
          · exact (chunkLoop_chain md seg.endSec
              (max (1/100) (seg.endSec - seg.startSec))
              ((chunksTotalLen (segChunks mw (trimStr seg.text)) : ℚ)) hmd
              (segChunks mw (trimStr seg.text)) b seg.startSec hseg).2

theorem cueBlocks_span :
    ∀ (segs : List ClipSegment) (b : Nat), totalChunkCount segs ≤ b →
      List.Forall₂ (fun seg block =>
        trimStr seg.text ≠ [] → seg.startSec < seg.endSec →
          block ≠ [] ∧
          (∀ c ∈ block.head?, c.startSec = seg.startSec) ∧
          (∀ c ∈ block.getLast?, c.endSec = seg.endSec) ∧
          block.Chain' (fun a c => a.endSec = c.startSec))
        segs (cueBlocks MAX_WORDS_PER_CHUNK MIN_CHUNK_DURATION_SEC b segs) := by
  have hmd : (0:ℚ) < MIN_CHUNK_DURATION_SEC := by norm_num [MIN_CHUNK_DURATION_SEC]
  intro segs
  induction segs with
  | nil => intro b _; rw [cueBlocks]; exact List.Forall₂.nil
  | cons seg rest ih =>
    intro b hcap
    rw [cueBlocks]
    dsimp only
    have hcap' : (if (trimStr seg.text).isEmpty then 0
        else (segChunks MAX_WORDS_PER_CHUNK (trimStr seg.text)).length)
        + totalChunkCount rest ≤ b := by
      simpa [totalChunkCount] using hcap
    by_cases hraw : (trimStr seg.text).isEmpty
    · rw [if_pos hraw]
      refine List.Forall₂.cons ?_ (ih b ?_)
      · intro hne _
        exact absurd (by simpa using hraw) hne
      · rw [if_pos hraw] at hcap'
        omega
    · rw [if_neg hraw]
      have hrawne : trimStr seg.text ≠ [] := by
        intro hc
        rw [hc] at hraw
        simp at hraw
      have htokne : tokens (trimStr seg.text) ≠ [] := tokens_trim_ne_nil hrawne
      have hchne : segChunks MAX_WORDS_PER_CHUNK (trimStr seg.text) ≠ [] :=
        chunkWordsGo_ne_nil MAX_WORDS_PER_CHUNK (segWords (trimStr seg.text)) []
          (Or.inr htokne)
      rw [if_neg hraw] at hcap'
      have hc1 : 0 < (segChunks MAX_WORDS_PER_CHUNK (trimStr seg.text)).length :=
        List.length_pos.mpr hchne
      have hb : ¬ b = 0 := by omega
      rw [if_neg hb]
      have hwords : ¬ (segWords (trimStr seg.text)).isEmpty = true := by
        simpa [segWords] using htokne
      rw [if_neg hwords]
      have hlen := chunkLoop_length_le_chunks MIN_CHUNK_DURATION_SEC seg.endSec
        (max (1/100) (seg.endSec - seg.startSec))
        ((chunksTotalLen (segChunks MAX_WORDS_PER_CHUNK (trimStr seg.text)) : ℚ))
        (segChunks MAX_WORDS_PER_CHUNK (trimStr seg.text)) b seg.startSec
      refine List.Forall₂.cons ?_ (ih _ ?_)
      · intro _ hlt
        obtain ⟨c, hlast, hend⟩ := chunkLoop_last_end MIN_CHUNK_DURATION_SEC seg.endSec
          (max (1/100) (seg.endSec - seg.startSec))
          ((chunksTotalLen (segChunks MAX_WORDS_PER_CHUNK (trimStr seg.text)) : ℚ)) hmd
          (segChunks MAX_WORDS_PER_CHUNK (trimStr seg.text)) b seg.startSec hlt hchne
          (by omega)
        have hchain := chunkLoop_chain MIN_CHUNK_DURATION_SEC seg.endSec
          (max (1/100) (seg.endSec - seg.startSec))
          ((chunksTotalLen (segChunks MAX_WORDS_PER_CHUNK (trimStr seg.text)) : ℚ)) hmd
          (segChunks MAX_WORDS_PER_CHUNK (trimStr seg.text)) b seg.startSec (le_of_lt hlt)
        refine ⟨?_, hchain.1, ?_, hchain.2⟩
        · intro hnil
          rw [hnil] at hlast
          simp at hlast
        · intro c' hc'
          rw [Option.mem_def, hlast] at hc'
          rw [← Option.some.inj hc']
          exact hend
      · omega

/-! ### Claim C10: caption cue invariants -/

/-- C10: for every segment list whose segments have `startSec ≤ endSec`,
`segmentToSubChunks` with default options returns at most 100 cues in total
(the flattening of one cue block per segment); every cue has strictly
positive duration, non-empty text of at most 4 whitespace-separated words,
and start/end times lying within its source segment's interval; and
consecutive cues of the same segment are adjacent. -/
theorem segmentToSubChunks_invariants (segments : List ClipSegment)
    (hseg : ∀ seg ∈ segments, seg.startSec ≤ seg.endSec) :
    segmentToSubChunks segments = (segmentCueBlocks segments).flatten ∧
    (segmentToSubChunks segments).length ≤ MAX_SUBTITLE_CHUNKS ∧
    List.Forall₂ (fun seg block =>
      (∀ cue ∈ block,
        seg.startSec ≤ cue.startSec ∧ cue.startSec < cue.endSec ∧ cue.endSec ≤ seg.endSec ∧
        tokens cue.text ≠ [] ∧ (tokens cue.text).length ≤ MAX_WORDS_PER_CHUNK) ∧
      block.Chain' (fun a c => a.endSec = c.startSec)) segments (segmentCueBlocks segments) :=
  ⟨subChunksGo_eq_flatten MAX_WORDS_PER_CHUNK MIN_CHUNK_DURATION_SEC segments MAX_SUBTITLE_CHUNKS,
   subChunksGo_length_le MAX_WORDS_PER_CHUNK MIN_CHUNK_DURATION_SEC segments MAX_SUBTITLE_CHUNKS,
   cueBlocks_forall2 MAX_WORDS_PER_CHUNK MIN_CHUNK_DURATION_SEC
     (by norm_num [MAX_WORDS_PER_CHUNK]) (by norm_num [MIN_CHUNK_DURATION_SEC])
     segments MAX_SUBTITLE_CHUNKS hseg⟩

/-- Witness for C10 at the five-segment fixture. -/
theorem segmentToSubChunks_invariants_witness :
    (∀ seg ∈ exSegs5, seg.startSec ≤ seg.endSec) ∧
    (segmentToSubChunks exSegs5 = (segmentCueBlocks exSegs5).flatten ∧
     (segmentToSubChunks exSegs5).length ≤ MAX_SUBTITLE_CHUNKS ∧
     List.Forall₂ (fun seg block =>
       (∀ cue ∈ block,
         seg.startSec ≤ cue.startSec ∧ cue.startSec < cue.endSec ∧ cue.endSec ≤ seg.endSec ∧
         tokens cue.text ≠ [] ∧ (tokens cue.text).length ≤ MAX_WORDS_PER_CHUNK) ∧
       block.Chain' (fun a c => a.endSec = c.startSec)) exSegs5 (segmentCueBlocks exSegs5)) :=
  ⟨of_decide_eq_true (by with_unfolding_all rfl),
   segmentToSubChunks_invariants exSegs5 (of_decide_eq_true (by with_unfolding_all rfl))⟩

/-! ### Claim C4: per-segment caption cue span (amended) -/

/-- C4 (amended): the 100-cue global cap can starve later segments, so the
cover property only holds below the cap: whenever the total chunk count of
the segment list is at most 100, every segment with non-empty trimmed text
and `startSec < endSec` receives a non-empty block of cues whose first cue
starts exactly at the segment's `startSec`, consecutive cues are adjacent
(no gap or overlap), and the final cue's `endSec` equals the segment's
`endSec` exactly. -/
theorem segmentToSubChunks_span (segments : List ClipSegment)
    (hcap : totalChunkCount segments ≤ MAX_SUBTITLE_CHUNKS) :
    segmentToSubChunks segments = (segmentCueBlocks segments).flatten ∧
    List.Forall₂ (fun seg block =>
      trimStr seg.text ≠ [] → seg.startSec < seg.endSec →
        block ≠ [] ∧
        (∀ c ∈ block.head?, c.startSec = seg.startSec) ∧
        (∀ c ∈ block.getLast?, c.endSec = seg.endSec) ∧
        block.Chain' (fun a c => a.endSec = c.startSec))
      segments (segmentCueBlocks segments) :=
  ⟨subChunksGo_eq_flatten MAX_WORDS_PER_CHUNK MIN_CHUNK_DURATION_SEC segments MAX_SUBTITLE_CHUNKS,
   cueBlocks_span segments MAX_SUBTITLE_CHUNKS hcap⟩

/-- Witness for the amended C4 at a one-segment fixture. -/
theorem segmentToSubChunks_span_witness :
    totalChunkCount [exSeg] ≤ MAX_SUBTITLE_CHUNKS ∧
    (segmentToSubChunks [exSeg] = (segmentCueBlocks [exSeg]).flatten ∧
     List.Forall₂ (fun seg block =>
       trimStr seg.text ≠ [] → seg.startSec < seg.endSec →
         block ≠ [] ∧
         (∀ c ∈ block.head?, c.startSec = seg.startSec) ∧
         (∀ c ∈ block.getLast?, c.endSec = seg.endSec) ∧
         block.Chain' (fun a c => a.endSec = c.startSec))
       [exSeg] (segmentCueBlocks [exSeg])) :=
  ⟨of_decide_eq_true (by with_unfolding_all rfl),
   segmentToSubChunks_span [exSeg] (of_decide_eq_true (by with_unfolding_all rfl))⟩

/-- Counterexample to C4 as stated: in a 101-segment list whose first 100
one-word segments exhaust the 100-cue cap, segment 100 has non-empty text
and a non-degenerate interval yet receives no cue at all, so its cues cover
nothing and no final cue ends at its `endSec`. -/
theorem segmentToSubChunks_cap_counterexample :
    exCapSegs.getD 100 exSeg = exCapSegB ∧
    trimStr exCapSegB.text ≠ [] ∧
    exCapSegB.startSec < exCapSegB.endSec ∧
    (segmentCueBlocks exCapSegs).length = 101 ∧
    (segmentCueBlocks exCapSegs).getD 100 [⟨0, 0, []⟩] = [] :=
  ⟨by with_unfolding_all rfl,
   of_decide_eq_true (by with_unfolding_all rfl),
   of_decide_eq_true (by with_unfolding_all rfl),
   by with_unfolding_all rfl,
   by with_unfolding_all rfl⟩

/-! ### Even word split lemmas -/

theorem evenGo_length (w : List Str) : ∀ (slots cursor : Nat),
    (evenGo w slots cursor).length = slots := by
  intro slots
  induction slots with
  | zero => intro cursor; rfl
  | succ s ih =>
    intro cursor
    rw [evenGo]
    rw [List.length_cons, ih]

theorem evenGo_flatten {w : List Str}
    (hw : ∀ x ∈ w, x ≠ [] ∧ ∀ c ∈ x, isWs c = false) :
    ∀ (slots cursor : Nat), 0 < slots →
      ((evenGo w slots cursor).map tokens).flatten = w.drop cursor := by
  intro slots
  induction slots with
  | zero => intro _ h; simp at h
  | succ s ih =>
    intro cursor _
    rw [evenGo]
    have hgrp : ∀ x ∈ (w.drop cursor).take (max 1 ((w.length - cursor + s) / (s + 1))),
        x ≠ [] ∧ ∀ c ∈ x, isWs c = false :=
      fun x hx => hw x (List.mem_of_mem_drop (List.mem_of_mem_take hx))
    rw [List.map_cons, List.flatten_cons, tokens_joinSp_words hgrp]
    by_cases hs : s = 0
    · subst hs
      rw [show evenGo w 0 (cursor + max 1 ((w.length - cursor + 0) / (0 + 1))) = [] from rfl]
      have htk : (w.drop cursor).length ≤ max 1 ((w.length - cursor + 0) / (0 + 1)) := by
        rw [List.length_drop]
        simp
      rw [List.take_of_length_le htk]
      simp
    · rw [ih _ (by omega)]
      have h1 : w.drop (cursor + max 1 ((w.length - cursor + s) / (s + 1))) =
          (w.drop cursor).drop (max 1 ((w.length - cursor + s) / (s + 1))) := by
        rw [List.drop_drop, Nat.add_comm]
      rw [h1, List.take_append_drop]

theorem evenGo_nonempty {w : List Str}
    (hw : ∀ x ∈ w, x ≠ [] ∧ ∀ c ∈ x, isWs c = false) :
    ∀ (slots cursor : Nat), slots ≤ w.length - cursor →
      ∀ bucket ∈ evenGo w slots cursor, tokens bucket ≠ [] := by
  intro slots
  induction slots with
  | zero => intro cursor _ bucket hb; simp [evenGo] at hb
  | succ s ih =>
    intro cursor hrem bucket hb
    rw [evenGo] at hb
    rcases List.mem_cons.mp hb with rfl | hb2
    · have hgrp : ∀ x ∈ (w.drop cursor).take (max 1 ((w.length - cursor + s) / (s + 1))),
          x ≠ [] ∧ ∀ c ∈ x, isWs c = false :=
        fun x hx => hw x (List.mem_of_mem_drop (List.mem_of_mem_take hx))
      rw [tokens_joinSp_words hgrp]
      have hpos : 0 < ((w.drop cursor).take (max 1 ((w.length - cursor + s) / (s + 1)))).length := by
        rw [List.length_take, List.length_drop]
        apply lt_min_iff.mpr
        exact ⟨lt_of_lt_of_le one_pos (le_max_left _ _), by omega⟩
      intro hc
      rw [hc] at hpos
      simp at hpos
    · obtain ⟨d, hd⟩ := Nat.exists_eq_add_of_le hrem
      have hlt : w.length - cursor + s < (d + 2) * (s + 1) := by
        have hexp : (d + 2) * (s + 1) = d * s + d + 2 * s + 2 := by ring
        omega
      have hdivle : (w.length - cursor + s) / (s + 1) ≤ d + 1 :=
        Nat.lt_succ_iff.mp ((Nat.div_lt_iff_lt_mul (by omega)).mpr hlt)
      have htk_le : max 1 ((w.length - cursor + s) / (s + 1)) ≤ d + 1 :=
        max_le (by omega) hdivle
      exact ih (cursor + max 1 ((w.length - cursor + s) / (s + 1))) (by omega) bucket hb2

/-! ### Claim C9: even word split (amended) -/

/-- C9 (amended): whenever the input has at least `N` words and `N > 0`,
`splitTextEvenlyByWords` returns exactly `N` buckets, every bucket holds at
least one word (no bucket is the empty string), and concatenating the
buckets' word lists reproduces the input's word list in order (the last
bucket absorbing the remainder).  With fewer words than buckets, later
buckets come out empty. -/
theorem splitTextEvenly_spec (text : Str) (N : Nat) (hN : 0 < N)
    (hwords : N ≤ (tokens text).length) :
    (splitTextEvenlyByWords text N).length = N ∧
    (∀ bucket ∈ splitTextEvenlyByWords text N, tokens bucket ≠ []) ∧
    ((splitTextEvenlyByWords text N).map tokens).flatten = tokens text := by
  have hne : ¬ (tokens text).isEmpty = true := by
    intro hc
    have h0 : tokens text = [] := by simpa using hc
    rw [h0] at hwords
    simp at hwords
    omega
  unfold splitTextEvenlyByWords
  dsimp only
  rw [if_neg hne]
  refine ⟨evenGo_length (tokens text) N 0, ?_, ?_⟩
  · exact evenGo_nonempty (fun x hx => tokens_mem hx) N 0 (by simpa using hwords)
  · have h := evenGo_flatten (w := tokens text) (fun x hx => tokens_mem hx) N 0 hN
    simpa using h

/-- Witness for the amended C9: three words into two buckets. -/
theorem splitTextEvenly_spec_witness :
    (0 < 2 ∧ 2 ≤ (tokens "a b c".data).length) ∧
    ((splitTextEvenlyByWords "a b c".data 2).length = 2 ∧
     (∀ bucket ∈ splitTextEvenlyByWords "a b c".data 2, tokens bucket ≠ []) ∧
     ((splitTextEvenlyByWords "a b c".data 2).map tokens).flatten = tokens "a b c".data) :=
  ⟨⟨by norm_num, of_decide_eq_true (by with_unfolding_all rfl)⟩,
   splitTextEvenly_spec "a b c".data 2 (by norm_num)
     (of_decide_eq_true (by with_unfolding_all rfl))⟩

/-- Counterexample to C9 as stated: a one-word input split into two buckets
returns an empty second bucket even though the input is non-empty. -/
theorem splitTextEvenly_counterexample :
    "hello".data ≠ [] ∧ tokens "hello".data ≠ [] ∧
    splitTextEvenlyByWords "hello".data 2 = ["hello".data, []] :=
  ⟨of_decide_eq_true (by with_unfolding_all rfl),
   of_decide_eq_true (by with_unfolding_all rfl),
   by with_unfolding_all rfl⟩

/-! ### Sentence split and voiceover segmentation lemmas -/

theorem tokens_collapse (u : Str) : tokens (collapseWs u) = tokens u := by
  have h := congrArg tokens (trim_collapse u)
  rw [tokens_trimStr, tokens_joinSp_words (fun x hx => tokens_mem hx)] at h
  exact h

theorem flatten_replicate_nil {α : Type} : ∀ (n : Nat),
    (List.replicate n ([] : List α)).flatten = [] := by
  intro n
  induction n with
  | zero => rfl
  | succ n ih => simp [List.replicate, ih]

theorem flatten_tokens_filter : ∀ (l : List Str),
    ((l.filter (fun p => !p.isEmpty)).map tokens).flatten = (l.map tokens).flatten := by
  intro l
  induction l with
  | nil => rfl
  | cons p l ih =>
    by_cases hp : p.isEmpty
    · have hnil : p = [] := by simpa using hp
      rw [List.filter_cons, if_neg (by simp [hp])]
      simp [ih, hnil, tokens_nil]
    · rw [List.filter_cons, if_pos (by simpa using hp)]
      simp [ih]

theorem flatten_tokens_map_trim : ∀ (l : List Str),
    ((l.map trimStr).map tokens).flatten = (l.map tokens).flatten := by
  intro l
  rw [List.map_map]
  have h : List.map (tokens ∘ trimStr) l = List.map tokens l :=
    List.map_congr_left (fun x _ => tokens_trimStr x)
  rw [h]

theorem splitTextEvenly_length (text : Str) (N : Nat) :
    (splitTextEvenlyByWords text N).length = N := by
  unfold splitTextEvenlyByWords
  by_cases h : (tokens text).isEmpty
  · rw [if_pos h, List.length_replicate]
  · rw [if_neg h, evenGo_length]

theorem splitTextEvenly_flatten (text : Str) (N : Nat) (hN : 0 < N) :
    ((splitTextEvenlyByWords text N).map tokens).flatten = tokens text := by
  unfold splitTextEvenlyByWords
  by_cases h : (tokens text).isEmpty
  · rw [if_pos h]
    have h0 : tokens text = [] := by simpa using h
    rw [h0, List.map_replicate, tokens_nil, flatten_replicate_nil]
  · rw [if_neg h]
    have hf := evenGo_flatten (w := tokens text) (fun x hx => tokens_mem hx) N 0 hN
    simpa using hf

theorem sentSplitGo_flatten : ∀ (acc rest : Str),
    ((sentSplitGo acc rest).map tokens).flatten = tokens (acc.reverse ++ rest) := by
  intro acc rest
  induction acc, rest using sentSplitGo.induct with
  | case1 acc => simp [sentSplitGo]
  | case2 acc c cs h ih =>
    rw [sentSplitGo, if_pos h]
    cases cs with
    | nil => simp [headIsWs] at h
    | cons d cs2 =>
      have hd : isWs d = true := by
        have h2 := (Bool.and_eq_true _ _).mp h
        simpa [headIsWs] using h2.2
      rw [List.map_cons, List.flatten_cons, ih]
      simp only [List.reverse_nil, List.nil_append]
      rw [tokens_dropWhileWs, List.reverse_cons]
      rw [show acc.reverse ++ c :: d :: cs2 = (acc.reverse ++ [c]) ++ d :: cs2 by
        rw [List.append_assoc]; rfl]
      rw [tokens_append_ws d hd, tokens_cons_ws hd]
  | case3 acc c cs h ih =>
    rw [sentSplitGo, if_neg h]
    rw [ih, List.reverse_cons, List.append_assoc]
    rfl

theorem splitSentences_flatten (text : Str) :
    ((splitSentences text).map tokens).flatten = tokens text := by
  unfold splitSentences
  have hchain : tokens (trimStr (collapseWs text)) = tokens text := by
    rw [tokens_trimStr, tokens_collapse]
  by_cases hn : (trimStr (collapseWs text)).isEmpty
  · rw [if_pos hn]
    have h0 : trimStr (collapseWs text) = [] := by simpa using hn
    rw [h0, tokens_nil] at hchain
    simp [← hchain]
  · rw [if_neg hn]
    by_cases hc : ((((sentSplitGo [] (trimStr (collapseWs text))).map trimStr).filter
        (fun p => !p.isEmpty))).isEmpty
    · rw [if_pos hc]
      simp [hchain]
    · rw [if_neg hc]
      rw [flatten_tokens_filter, flatten_tokens_map_trim, sentSplitGo_flatten]
      simpa using hchain

theorem splitSentences_nil {text : Str} (h : splitSentences text = []) :
    tokens text = [] := by
  have hf := splitSentences_flatten text
  rw [h] at hf
  simpa using hf.symm

theorem innerScan_ge (S : List Str) (W : List Nat) (target : ℚ) (remSegs : Nat) :
    ∀ (k cursor : Nat) (running : ℚ), S.length - cursor = k →
      cursor ≤ innerScan S W target remSegs cursor running := by
  intro k
  induction k with
  | zero =>
    intro cursor running hk
    rw [innerScan]
    rw [dif_neg (show ¬ cursor < S.length by omega)]
  | succ k ih =>
    intro cursor running hk
    rw [innerScan]
    rw [dif_pos (show cursor < S.length by omega)]
    dsimp only
    by_cases h1 : 0 < running ∧ target < running + ((W.getD cursor 0 : ℚ)) ∧
        decide (remSegs - 1 ≤ S.length - (cursor + 1)) = true
    · rw [if_pos h1]
    · rw [if_neg h1]
      by_cases h2 : decide (remSegs - 1 ≤ S.length - (cursor + 1)) = false
      · rw [if_pos h2]; omega
      · rw [if_neg h2]
        by_cases h3 : target * (17/20) ≤ running + ((W.getD cursor 0 : ℚ))
        · rw [if_pos h3]; omega
        · rw [if_neg h3]
          have := ih (cursor + 1) (running + ((W.getD cursor 0 : ℚ))) (by omega)
          omega

theorem drop_eq_getD_cons {α : Type} (d : α) :
    ∀ (l : List α) (i : Nat), i < l.length → l.drop i = l.getD i d :: l.drop (i + 1) := by
  intro l
  induction l with
  | nil => intro i h; simp at h
  | cons a l ih =>
    intro i h
    cases i with
    | zero => simp
    | succ i =>
      rw [List.drop_succ_cons, List.getD_cons_succ, show i + 1 + 1 = i + 2 from rfl]
      rw [show List.drop (i + 2) (a :: l) = List.drop (i + 1) l from rfl]
      exact ih i (by simpa using h)

theorem earlyFill_flatten (S : List Str) (n : Nat) :
    ∀ (k cursor : Nat) (segments : List Str), S.length - cursor = k →
      S.length - cursor ≤ n - segments.length →
      ((earlyFill S n cursor segments).map tokens).flatten =
        (segments.map tokens).flatten ++ ((S.drop cursor).map tokens).flatten := by
  intro k
  induction k with
  | zero =>
    intro cursor segments hk _
    rw [earlyFill]
    rw [dif_neg (by intro hc; omega)]
    rw [List.drop_eq_nil_of_le (by omega)]
    simp
  | succ k ih =>
    intro cursor segments hk hle
    have hcur : cursor < S.length := by omega
    have hseg : segments.length < n := by omega
    rw [earlyFill]
    rw [dif_pos ⟨hseg, hcur⟩]
    rw [ih (cursor + 1) (segments ++ [S.getD cursor []]) (by omega)
      (by rw [List.length_append]; simp; omega)]
    rw [drop_eq_getD_cons [] S cursor hcur]
    simp [List.append_assoc]

theorem greedyGo_flatten (S : List Str) (W : List Nat) (target : ℚ) (n : Nat) :
    ∀ (k i cursor : Nat) (segments : List Str), n - i = k → i < n → segments.length = i →
      ((greedyGo S W target n i cursor segments).map tokens).flatten =
        (segments.map tokens).flatten ++ ((S.drop cursor).map tokens).flatten := by
  intro k
  induction k with
  | zero =>
    intro i cursor segments hk hi _
    exact absurd hi (by omega)
  | succ k ih =>
    intro i cursor segments hk hi hlen
    rw [greedyGo]
    rw [if_neg (show ¬ n ≤ i by omega)]
    by_cases hlast : i = n - 1
    · rw [if_pos hlast]
      rw [List.map_append, List.flatten_append]
      simp only [List.map_cons, List.map_nil, List.flatten_cons, List.flatten_nil,
        List.append_nil]
      rw [tokens_trimStr, tokens_joinSp]
    · rw [if_neg hlast]
      dsimp only
      have hge : cursor ≤ innerScan S W target (n - i) cursor 0 :=
        innerScan_ge S W target (n - i) (S.length - cursor) cursor 0 rfl
      have hc2 : cursor + 1 ≤ (if innerScan S W target (n - i) cursor 0 = cursor
          then innerScan S W target (n - i) cursor 0 + 1
          else innerScan S W target (n - i) cursor 0) := by
        by_cases hc : innerScan S W target (n - i) cursor 0 = cursor
        · rw [if_pos hc]; omega
        · rw [if_neg hc]; omega
      have halg : ∀ c2 : Nat, cursor ≤ c2 →
          ((((segments ++ [trimStr (joinSp ((S.drop cursor).take (c2 - cursor)))]).map
            tokens).flatten ++ ((S.drop c2).map tokens).flatten) =
            (segments.map tokens).flatten ++ ((S.drop cursor).map tokens).flatten) := by
        intro c2 hcc
        rw [List.map_append, List.flatten_append]
        simp only [List.map_cons, List.map_nil, List.flatten_cons, List.flatten_nil,
          List.append_nil]
        rw [tokens_trimStr, tokens_joinSp]
        have hdd : S.drop c2 = (S.drop cursor).drop (c2 - cursor) := by
          rw [List.drop_drop]
          congr 1
          omega
        rw [hdd, List.append_assoc, ← List.flatten_append, ← List.map_append,
          List.take_append_drop]
      by_cases hfit : S.length - cursor ≤ n - i
      · rw [if_pos hfit]
        rw [earlyFill_flatten S n
          (S.length - (if innerScan S W target (n - i) cursor 0 = cursor
            then innerScan S W target (n - i) cursor 0 + 1
            else innerScan S W target (n - i) cursor 0)) _ _ rfl
          (by rw [List.length_append]; simp [hlen]; omega)]
        exact halg _ (by omega)
      · rw [if_neg hfit]
        rw [ih (i + 1) _ _ (by omega) (by omega) (by rw [List.length_append]; simp [hlen])]
        exact halg _ (by omega)

theorem greedyPost_length (T : Str) (N : Nat) (hN : 0 < N) (G : List Str) :
    (if G.length < N then (splitTextEvenlyByWords T N).map trimStr
     else if N < G.length then G.take (N - 1) ++ [trimStr (joinSp (G.drop (N - 1)))]
     else G).length = N := by
  by_cases h1 : G.length < N
  · rw [if_pos h1, List.length_map, splitTextEvenly_length]
  · rw [if_neg h1]
    by_cases h2 : N < G.length
    · rw [if_pos h2, List.length_append, List.length_take]
      simp only [List.length_cons, List.length_nil]
      omega
    · rw [if_neg h2]
      omega

theorem greedyPost_tokens (N : Nat) (hN : 0 < N) (G : List Str) :
    tokens (joinSp (if G.length < N
        then (splitTextEvenlyByWords (trimStr (joinSp G)) N).map trimStr
        else if N < G.length then G.take (N - 1) ++ [trimStr (joinSp (G.drop (N - 1)))]
        else G)) = (G.map tokens).flatten := by
  by_cases h1 : G.length < N
  · rw [if_pos h1]
    rw [tokens_joinSp, flatten_tokens_map_trim, splitTextEvenly_flatten _ _ hN,
      tokens_trimStr, tokens_joinSp]
  · rw [if_neg h1]
    by_cases h2 : N < G.length
    · rw [if_pos h2]
      rw [tokens_joinSp, List.map_append, List.flatten_append]
      simp only [List.map_cons, List.map_nil, List.flatten_cons, List.flatten_nil,
        List.append_nil]
      rw [tokens_trimStr, tokens_joinSp, ← List.flatten_append, ← List.map_append,
        List.take_append_drop]
    · rw [if_neg h2, tokens_joinSp]

theorem splitVoiceover_length (voiceover : Str) (N : Nat) (hN : 0 < N) :
    (splitVoiceoverByClipCount voiceover N).length = N := by
  unfold splitVoiceoverByClipCount
  rw [if_neg (show ¬ N = 0 by omega)]
  dsimp only
  by_cases hs : (splitSentences voiceover).isEmpty
  · rw [if_pos hs, List.length_replicate]
  · rw [if_neg hs]
    by_cases hle : (splitSentences voiceover).length ≤ N
    · rw [if_pos hle, List.length_map, splitTextEvenly_length]
    · rw [if_neg hle]
      exact greedyPost_length _ N hN _

theorem splitVoiceover_tokens (voiceover : Str) (N : Nat) (hN : 0 < N) :
    tokens (joinSp (splitVoiceoverByClipCount voiceover N)) = tokens voiceover := by
  unfold splitVoiceoverByClipCount
  rw [if_neg (show ¬ N = 0 by omega)]
  dsimp only
  by_cases hs : (splitSentences voiceover).isEmpty
  · rw [if_pos hs]
    have hnil : splitSentences voiceover = [] := by simpa using hs
    have hv : tokens voiceover = [] := splitSentences_nil hnil
    rw [hv, tokens_joinSp, List.map_replicate, tokens_nil, flatten_replicate_nil]
  · rw [if_neg hs]
    by_cases hle : (splitSentences voiceover).length ≤ N
    · rw [if_pos hle]
      rw [tokens_joinSp, flatten_tokens_map_trim, splitTextEvenly_flatten _ _ hN]
    · rw [if_neg hle]
      rw [greedyPost_tokens N hN _]
      have hg := greedyGo_flatten (splitSentences voiceover)
        ((splitSentences voiceover).map (fun s => (tokens s).length))
        (max 1 (((((splitSentences voiceover).map (fun s => (tokens s).length)).sum : ℕ) : ℚ)
          / (N : ℚ)))
        N N 0 0 [] rfl hN rfl
      simp only [List.map_nil, List.flatten_nil, List.nil_append, List.drop_zero] at hg
      rw [hg, splitSentences_flatten]

/-! ### Claim C8: voiceover segmentation completeness -/

/-- C8: for every narration string and every clip count `N > 0`,
`splitVoiceoverByClipCount` returns exactly `N` text segments, and rejoining
them with spaces and normalizing (lower-cased, punctuation stripped) yields
no fewer characters than the normalized input: in fact the two normalized
strings are token-identical, so no sentence is ever dropped. -/
theorem splitVoiceover_complete (voiceover : Str) (N : Nat) (hN : 0 < N) :
    (splitVoiceoverByClipCount voiceover N).length = N ∧
    (normalizeForCoverage voiceover).length ≤
      (normalizeForCoverage (joinSp (splitVoiceoverByClipCount voiceover N))).length := by
  refine ⟨splitVoiceover_length voiceover N hN, ?_⟩
  rw [normalizeForCoverage_congr (splitVoiceover_tokens voiceover N hN)]

/-- Witness for C8: the four-sentence input of the spec's scenario with
`N = 2`, which also yields two non-empty segments. -/
theorem splitVoiceover_complete_witness :
    0 < 2 ∧
    ((splitVoiceoverByClipCount "A. B. C. D.".data 2).length = 2 ∧
     (normalizeForCoverage "A. B. C. D.".data).length ≤
       (normalizeForCoverage
         (joinSp (splitVoiceoverByClipCount "A. B. C. D.".data 2))).length) ∧
    (∀ s ∈ splitVoiceoverByClipCount "A. B. C. D.".data 2, s ≠ []) :=
  ⟨by norm_num,
   splitVoiceover_complete "A. B. C. D.".data 2 (by norm_num),
   of_decide_eq_true (by with_unfolding_all rfl)⟩
